import Mathlib

/-!
# Transform hierarchy of LumixEngine (`src/universe/hierarchy.cpp`)

A shallow embedding of `HierarchyImpl` and a verification of the properties
its specification states about it.

* Entities are identified by their `int32_t` index; handles are never used in
  arithmetic, so they are plain integers here.
* `Matrix` (`core/matrix.h`) is a type parameter `M` with a product and an
  inverse; theorems that speak of exact transform arithmetic ask for the
  algebraic laws they use.
* Both hash maps are association lists: `find` returns the first entry with
  the key, `erase` removes the entry an iterator points at, `insert` adds an
  entry.
* An `ASSERT` that fails, and a read past the end of a blob, are the result
  `none`.
-/

namespace Lumix

/-! ## Data model -/

/-- Modelled from the spec: the index of `Entity::INVALID` (`universe/universe.h`
is not among the sources), the reserved handle that means "no entity"; real
handles are non-negative. -/
def INVALID : Int := -1

/-- A record of `Array<Child>`: the child entity and its transform relative to
its parent (`Hierarchy::Child`). -/
structure Child (M : Type) where
  m_entity : Int
  m_local_matrix : M
deriving DecidableEq, Repr

/-- The type `HashMap<int32_t, int32_t>` of `m_parents`: child index to parent index. -/
abbrev Parents := List (Int × Int)

/-- The type `PODHashMap<int32_t, Array<Child>*>` of `m_children`: parent index to
its array of child records. -/
abbrev Children (M : Type) := List (Int × List (Child M))

/-- A delegate bound to `parentSet()`. It receives the two arguments of the
invocation; what it can query of the hierarchy while it runs (`getParent`,
`getChildren`) is given as the two maps, and what it does is a change of the
observer state `Ω` outside the hierarchy. -/
abbrev Listener (M Ω : Type) := Parents → Children M → Int → Int → Ω → Ω

/-- The members of `HierarchyImpl`, with the two collaborators it acts on:
`world` is the world matrix of every entity of `m_universe`, `observed` is the
state of the code behind the `parentSet` delegates. -/
structure HierarchyImpl (M Ω : Type) where
  world : Int → M
  m_parents : Parents
  m_children : Children M
  m_parent_set : List (Listener M Ω)
  m_is_processing : Bool
  observed : Ω

/-! ## Hash maps and arrays -/

/-- Modelled from the spec: the lookup `find(key)` of `HashMap` and `PODHashMap`
(`core/hash_map.h`, `core/pod_hash_map.h` are not among the sources): the value stored
under the key, if any; with the map as a list of entries, the first entry with the key. -/
def find {α : Type} : List (Int × α) → Int → Option α
  | [], _ => none
  | (k, v) :: rest, key => if k = key then some v else find rest key

/-- Modelled from the spec: the call `erase(iterator)` of `HashMap`, the iterator being the
result of `find(key)`: that entry leaves the map. -/
def erase {α : Type} : List (Int × α) → Int → List (Int × α)
  | [], _ => []
  | (k, v) :: rest, key => if k = key then rest else (k, v) :: erase rest key

/-- Modelled from the spec: the call `insert(key, value)` of `HashMap` and `PODHashMap`: one
more entry. The code calls it only when the map has no entry with the key. -/
def insert {α : Type} (m : List (Int × α)) (key : Int) (value : α) : List (Int × α) :=
  m ++ [(key, value)]

/-- A write through `*iter.value()`, `iter` being the result of `find(key)`: the value of
that entry is changed in place. -/
def modify {α : Type} : List (Int × α) → Int → (α → α) → List (Int × α)
  | [], _, _ => []
  | (k, v) :: rest, key, f => if k = key then (k, f v) :: rest else (k, v) :: modify rest key f

/-- The loop of `setParent` over the old parent's array: `erase(i)` at the first index `i`
whose record has the entity `child`, then `break`; an array without such a record is
left as it is. -/
def eraseChild {M : Type} : List (Child M) → Int → List (Child M)
  | [], _ => []
  | ch :: rest, child => if ch.m_entity = child then rest else ch :: eraseChild rest child

/-- The second loop of `onEntityMoved`: overwrite the local matrix of the first record
whose entity is `entity`, then stop. -/
def setLocalMatrix {M : Type} : List (Child M) → Int → M → List (Child M)
  | [], _, _ => []
  | ch :: rest, entity, m =>
    if ch.m_entity = entity then { ch with m_local_matrix := m } :: rest
    else ch :: setLocalMatrix rest entity m

/-- The entities of an array of child records, in order. -/
def entities {M : Type} (cs : List (Child M)) : List Int := cs.map Child.m_entity

/-- The keys of a hash map. -/
def keys {α : Type} (m : List (Int × α)) : List Int := m.map Prod.fst

/-! ## The operations of `HierarchyImpl` -/

variable {M Ω : Type}

/-- The constructor: empty maps, no listener, the guard clear. -/
def create (world : Int → M) (ω : Ω) : HierarchyImpl M Ω :=
  { world := world, m_parents := [], m_children := [], m_parent_set := [],
    m_is_processing := false, observed := ω }

/-- Modelled from the spec: `DelegateList::invoke` (`core/delegate_list.h` is not among
the sources) calls every registered listener once, in registration order, with the
arguments of the invocation. -/
def invoke (ls : List (Listener M Ω)) (ps : Parents) (cs : Children M)
    (child parent : Int) (ω : Ω) : Ω :=
  ls.foldl (fun acc l => l ps cs child parent acc) ω

/-- Modelled from the spec: `parentSet().bind(...)` registers one more listener, after
those already registered. -/
def bindListener (s : HierarchyImpl M Ω) (l : Listener M Ω) : HierarchyImpl M Ω :=
  { s with m_parent_set := s.m_parent_set ++ [l] }

/-- Modelled from the spec: `Entity::setMatrix` (`universe/entity.cpp` is not among the
sources) stores the world matrix of the entity and raises the universe's move
notification, whose handler `notify` is `HierarchyImpl::onEntityMoved`. -/
def setMatrix (notify : HierarchyImpl M Ω → Int → Option (HierarchyImpl M Ω))
    (s : HierarchyImpl M Ω) (e : Int) (m : M) : Option (HierarchyImpl M Ω) :=
  notify { s with world := Function.update s.world e m } e

/-- The first loop of `onEntityMoved`, `for (i = 0, c = children.size(); i < c; ++i)`:
the first number is `c - i`, the second is `i`. Each round reads `children[i]` from the
array of `entity` as it then is and gives the child the matrix
`parent_matrix * children[i].m_local_matrix`. -/
def moveChildren [Mul M] (notify : HierarchyImpl M Ω → Int → Option (HierarchyImpl M Ω))
    (entity : Int) (parent_matrix : M) :
    Nat → Nat → HierarchyImpl M Ω → Option (HierarchyImpl M Ω)
  | 0, _, s => some s
  | n + 1, i, s =>
    match find s.m_children entity with
    | none => none
    | some children =>
      match children[i]? with
      | none => none
      | some ch =>
        match setMatrix notify s ch.m_entity (parent_matrix * ch.m_local_matrix) with
        | none => none
        | some s1 => moveChildren notify entity parent_matrix n (i + 1) s1

/-- The second half of `onEntityMoved`: when `entity` has a parent whose array exists,
the record of `entity` in it gets the local matrix
`inverse(parent.getMatrix()) * entity.getMatrix()`. -/
def updateLocal [Mul M] [Inv M] (s : HierarchyImpl M Ω) (entity : Int) : HierarchyImpl M Ω :=
  match find s.m_parents entity with
  | none => s
  | some parent =>
    match find s.m_children parent with
    | none => s
    | some _ =>
      let local_matrix := (s.world parent)⁻¹ * s.world entity
      { s with m_children :=
          modify s.m_children parent (fun children => setLocalMatrix children entity local_matrix) }

/-- The first half of `onEntityMoved`: when `entity` has an array of children, its world
matrix is read once and the loop runs over the array. -/
def moveAll [Mul M] (notify : HierarchyImpl M Ω → Int → Option (HierarchyImpl M Ω))
    (s : HierarchyImpl M Ω) (entity : Int) : Option (HierarchyImpl M Ω) :=
  match find s.m_children entity with
  | none => some s
  | some children => moveChildren notify entity (s.world entity) children.length 0 s

/-- The handler `HierarchyImpl::onEntityMoved`. The notifications raised by the
`setMatrix` calls of its first loop come back to the handler itself; the first
argument bounds the depth of that nesting (`none` when it is used up). -/
def onEntityMoved [Mul M] [Inv M] :
    Nat → HierarchyImpl M Ω → Int → Option (HierarchyImpl M Ω)
  | 0, _, _ => none
  | fuel + 1, s, entity =>
    if s.m_is_processing then some s
    else
      match moveAll (onEntityMoved fuel) { s with m_is_processing := true } entity with
      | none => none
      | some s1 =>
        let s2 := updateLocal s1 entity
        some { s2 with m_is_processing := false }

/-- The first half of `setParent`: when `child` has a parent, its record is erased from
the old parent's array and its entry from `m_parents`. `none` is the failure of
`ASSERT(child_iter.isValid())`. -/
def detach (s : HierarchyImpl M Ω) (child : Int) : Option (HierarchyImpl M Ω) :=
  match find s.m_parents child with
  | none => some s
  | some old_parent =>
    match find s.m_children old_parent with
    | none => none
    | some _ =>
      some { s with
        m_children := modify s.m_children old_parent (fun children => eraseChild children child),
        m_parents := erase s.m_parents child }

/-- The second half of `setParent`, under `parent.index >= 0`: the entry of `m_parents`,
the array of `parent` (made when there is none), and the new last record with the local
matrix `inverse(parent.getMatrix()) * child.getMatrix()`. -/
def attach [Mul M] [Inv M] (s : HierarchyImpl M Ω) (child parent : Int) : HierarchyImpl M Ω :=
  if 0 ≤ parent then
    let children :=
      match find s.m_children parent with
      | some _ => s.m_children
      | none => insert s.m_children parent []
    let c : Child M := { m_entity := child, m_local_matrix := (s.world parent)⁻¹ * s.world child }
    { s with
      m_parents := insert s.m_parents child parent,
      m_children := modify children parent (fun cs => cs ++ [c]) }
  else s

/-- The last line of `setParent`: `m_parent_set.invoke(child, parent)`. -/
def notifyParentSet (s : HierarchyImpl M Ω) (child parent : Int) : HierarchyImpl M Ω :=
  { s with observed := invoke s.m_parent_set s.m_parents s.m_children child parent s.observed }

/-- The method `HierarchyImpl::setParent`. -/
def setParent [Mul M] [Inv M] (s : HierarchyImpl M Ω) (child parent : Int) :
    Option (HierarchyImpl M Ω) :=
  match detach s child with
  | none => none
  | some s1 => some (notifyParentSet (attach s1 child parent) child parent)

/-- The method `HierarchyImpl::getParent`, as the index of the entity it returns. -/
def getParent (s : HierarchyImpl M Ω) (child : Int) : Int :=
  match find s.m_parents child with
  | some parent => parent
  | none => INVALID

/-- The method `HierarchyImpl::getChildren`; `none` is `NULL`. -/
def getChildren (s : HierarchyImpl M Ω) (parent : Int) : Option (List (Child M)) :=
  find s.m_children parent

/-- Modelled from the spec: the iteration `begin() .. end()` of `HashMap`
(`core/hash_map.h` is not among the sources) visits every entry once, in an order that is
the table's own. -/
structure Iteration where
  run : Parents → Parents
  perm : ∀ m, (run m).Perm m

/-- The two `write` calls of one round of the loop of `serialize`. -/
def writePair (kv : Int × Int) : List Int := [kv.1, kv.2]

/-- The method `HierarchyImpl::serialize`, as the `int32_t` values it writes to the blob. -/
def serialize (it : Iteration) (s : HierarchyImpl M Ω) : List Int :=
  (s.m_parents.length : Int) :: (it.run s.m_parents).flatMap writePair

/-- The loop of `deserialize`: `n` rounds, each reading `child` and `parent` from the blob
and calling `setParent`. -/
def readPairs [Mul M] [Inv M] :
    Nat → List Int → HierarchyImpl M Ω → Option (HierarchyImpl M Ω)
  | 0, _, s => some s
  | n + 1, child :: parent :: blob, s =>
    match setParent s child parent with
    | none => none
    | some s1 => readPairs n blob s1
  | _ + 1, _, _ => none

/-- The method `HierarchyImpl::deserialize` on the values still to be read from the blob;
`for (i = 0; i < size; ++i)` runs `size.toNat` rounds. -/
def deserialize [Mul M] [Inv M] (s : HierarchyImpl M Ω) :
    List Int → Option (HierarchyImpl M Ω)
  | [] => none
  | size :: blob => readPairs size.toNat blob s

/-- A sequence of `setParent` calls, each given as `(child, parent)`. -/
def setParents [Mul M] [Inv M] :
    HierarchyImpl M Ω → List (Int × Int) → Option (HierarchyImpl M Ω)
  | s, [] => some s
  | s, (child, parent) :: calls =>
    match setParent s child parent with
    | none => none
    | some s1 => setParents s1 calls

/-- The states a hierarchy can be in between two calls: it is created empty, and then
listeners are bound, parents are set, blobs are read, entities are moved through
`setMatrix` and move notifications arrive. -/
inductive Reachable [Mul M] [Inv M] : HierarchyImpl M Ω → Prop
  | create (world : Int → M) (ω : Ω) : Reachable (create world ω)
  | bindListener {s : HierarchyImpl M Ω} (l : Listener M Ω) :
      Reachable s → Reachable (bindListener s l)
  | setParent {s s1 : HierarchyImpl M Ω} (child parent : Int) :
      Reachable s → setParent s child parent = some s1 → Reachable s1
  | deserialize {s s1 : HierarchyImpl M Ω} (blob : List Int) :
      Reachable s → deserialize s blob = some s1 → Reachable s1
  | onEntityMoved {s s1 : HierarchyImpl M Ω} (fuel : Nat) (entity : Int) :
      Reachable s → onEntityMoved fuel s entity = some s1 → Reachable s1
  | setMatrix {s s1 : HierarchyImpl M Ω} (fuel : Nat) (entity : Int) (m : M) :
      Reachable s → setMatrix (onEntityMoved fuel) s entity m = some s1 → Reachable s1


/-! ## Vocabulary of the properties -/

/-- The parent argument of the last call of `calls` that names `c` as child, if there
is one. -/
def lastParent (calls : List (Int × Int)) (c : Int) : Option Int :=
  ((calls.filter (fun call => decide (call.1 = c))).map Prod.snd).getLast?

/-- A listener that writes down each invocation it receives: the two arguments, and what
`getParent(child)` answers at that moment. -/
def recorder : Listener M (List (Int × Int × Int)) :=
  fun ps _ child parent log =>
    log ++ [(child, parent, match find ps child with
      | some p => p
      | none => INVALID)]

/-- Exact translations of space, a transform type for concrete scenarios: the product
composes two translations (the offsets add up) and the inverse is the opposite offset. -/
structure Translation where
  x : Int
  y : Int
  z : Int
deriving DecidableEq, Repr

instance : Semigroup Translation where
  mul a b := ⟨a.x + b.x, a.y + b.y, a.z + b.z⟩
  mul_assoc a b c := by
    show Translation.mk _ _ _ = Translation.mk _ _ _
    simp only [Translation.mk.injEq]
    exact ⟨Int.add_assoc _ _ _, Int.add_assoc _ _ _, Int.add_assoc _ _ _⟩

instance : Inv Translation where
  inv a := ⟨-a.x, -a.y, -a.z⟩

/-- World matrices of a small scene: entity 1 at `(1,0,0)`, entity 2 at `(0,2,0)`, every
other entity at the origin. -/
def sampleWorld : Int → Translation :=
  fun e => if e = 1 then ⟨1, 0, 0⟩ else if e = 2 then ⟨0, 2, 0⟩ else ⟨0, 0, 0⟩

/-- The store after `setParent(1, 0)`, `setParent(2, 1)`, `setParent(3, 0)` on the empty
store of that scene: the chain `0 -> 1 -> 2` and a second child `3` of `0`. -/
def sampleStore : HierarchyImpl Translation Unit :=
  { world := sampleWorld,
    m_parents := [(1, 0), (2, 1), (3, 0)],
    m_children := [(0, [⟨1, ⟨1, 0, 0⟩⟩, ⟨3, ⟨0, 0, 0⟩⟩]), (1, [⟨2, ⟨-1, 2, 0⟩⟩])],
    m_parent_set := [],
    m_is_processing := false,
    observed := () }

/-! ## The invariant of the store -/

/-- What holds of the store between two calls: no key twice in either map, no entity
twice in an array, the two maps say the same (a record of `c` in the array of `p` exactly
when `m_parents` maps `c` to `p`), every stored parent is a real handle, and the guard is
clear. -/
structure Consistent (s : HierarchyImpl M Ω) : Prop where
  parents_nodup : (keys s.m_parents).Nodup
  children_nodup : (keys s.m_children).Nodup
  entities_nodup : ∀ p cs, find s.m_children p = some cs → (entities cs).Nodup
  link : ∀ c p, find s.m_parents c = some p ↔
    ∃ cs, find s.m_children p = some cs ∧ c ∈ entities cs
  parent_nonneg : ∀ c p, find s.m_parents c = some p → 0 ≤ p
  idle : s.m_is_processing = false

/-- The world matrices after the first loop of `onEntityMoved` has gone over the records
`cs`: each record in turn gives its entity the matrix `parent_matrix * m_local_matrix`. -/
def moveWorld [Mul M] (parent_matrix : M) (cs : List (Child M)) (world : Int → M) : Int → M :=
  cs.foldl (fun w ch => Function.update w ch.m_entity (parent_matrix * ch.m_local_matrix)) world

/-- The world matrices after the first half of `onEntityMoved`. -/
def movedWorld [Mul M] (s : HierarchyImpl M Ω) (entity : Int) : Int → M :=
  match find s.m_children entity with
  | none => s.world
  | some children => moveWorld (s.world entity) children s.world

/-- The store `onEntityMoved` returns when it is entered with the guard clear and the
notifications of its own `setMatrix` calls find the guard set: the children of `entity`
are moved, the local matrix of `entity` is recomputed, the guard is clear again. -/
def moved [Mul M] [Inv M] (s : HierarchyImpl M Ω) (entity : Int) : HierarchyImpl M Ω :=
  let s2 := updateLocal { s with m_is_processing := true, world := movedWorld s entity } entity
  { s2 with m_is_processing := false }

/-- A store that no sequence of calls produces: `m_parents` maps entity 1 to 0, and the array
of children of 0 exists but holds no record of 1. -/
def brokenStore : HierarchyImpl Translation Unit :=
  { world := sampleWorld,
    m_parents := [(1, 0)],
    m_children := [(0, [])],
    m_parent_set := [],
    m_is_processing := false,
    observed := () }

/-- The chain of parents of `c`: `getParent` applied `n` times, starting from `c`. -/
def ancestor (s : HierarchyImpl M Ω) : Nat → Int → Int
  | 0, c => c
  | n + 1, c => ancestor s n (getParent s c)

/-- A sequence of `setParent` calls in which no call names as parent the child itself or an
entity that has the child in its chain of parents at the time of the call. -/
def guardedCalls [Mul M] [Inv M] : HierarchyImpl M Ω → List (Int × Int) → Prop
  | _, [] => True
  | s, (child, parent) :: calls =>
    (∀ n, ancestor s n parent ≠ child) ∧
      match setParent s child parent with
      | none => True
      | some s1 => guardedCalls s1 calls

instance : One Translation where
  one := ⟨0, 0, 0⟩

instance : Group Translation :=
  Group.ofLeftAxioms
    (fun a b c => mul_assoc a b c)
    (fun a => by
      show Translation.mk _ _ _ = a
      cases a
      simp only [Translation.mk.injEq]
      exact ⟨Int.zero_add _, Int.zero_add _, Int.zero_add _⟩)
    (fun a => by
      show Translation.mk _ _ _ = Translation.mk 0 0 0
      simp only [Translation.mk.injEq]
      exact ⟨Int.add_left_neg _, Int.add_left_neg _, Int.add_left_neg _⟩)

/-- Depth one: no entity that has a parent also has children, that is, no key of `m_parents`
is the parent of an entry. -/
def depthOne (s : HierarchyImpl M Ω) : Bool :=
  s.m_parents.all (fun cp => s.m_parents.all (fun xq => decide (xq.2 ≠ cp.1)))

/-- The states reached from the empty store by `setParent` calls and changes of world
matrices, each change followed by its move notification, when every state on the way is
of depth one. The transforms form a group: the product is exact and every transform has
its inverse. -/
inductive FlatReachable [Group M] : HierarchyImpl M Ω → Prop
  | create (world : Int → M) (ω : Ω) : FlatReachable (create world ω)
  | setParent {s s1 : HierarchyImpl M Ω} (child parent : Int) :
      FlatReachable s → setParent s child parent = some s1 → depthOne s1 = true →
      FlatReachable s1
  | setMatrix {s s1 : HierarchyImpl M Ω} (fuel : Nat) (entity : Int) (m : M) :
      FlatReachable s → setMatrix (onEntityMoved fuel) s entity m = some s1 →
      depthOne s1 = true → FlatReachable s1

/-- The store after `setParent(1, 0)` on the empty store of the sample scene. -/
def pairStore : HierarchyImpl Translation Unit :=
  { world := sampleWorld,
    m_parents := [(1, 0)],
    m_children := [(0, [⟨1, ⟨1, 0, 0⟩⟩])],
    m_parent_set := [],
    m_is_processing := false,
    observed := () }

/-! ## The culling system (`src/graphics/culling_system.h`)

The header declares the interface only; `Sphere`, `Frustum` and the class that implements
`CullingSystem` are not among the sources. Coordinates are taken in a linearly ordered
ring, where the arithmetic of the test is exact. -/

/-- Modelled from the spec: `Vec3` (`core/vec3.h` is not among the sources), three
coordinates. -/
structure Vec3 (R : Type) where
  x : R
  y : R
  z : R
deriving DecidableEq, Repr

/-- Modelled from the spec: `Sphere` (`core/sphere.h` is not among the sources), a bounding
sphere `{ center, radius }`. -/
structure Sphere (R : Type) where
  m_position : Vec3 R
  m_radius : R
deriving DecidableEq, Repr

/-- Modelled from the spec: one bounding half-space of a frustum, as a plane with a unit
normal that points into the view volume; the signed distance of a point `p` is
`normal · p + d`. -/
structure Plane (R : Type) where
  normal : Vec3 R
  d : R
deriving DecidableEq, Repr

/-- Modelled from the spec: `Frustum` (declared, not defined, in the header), the view volume
bounded by six planes. -/
structure Frustum (R : Type) where
  near : Plane R
  far : Plane R
  left : Plane R
  right : Plane R
  top : Plane R
  bottom : Plane R
deriving DecidableEq, Repr

/-- The six planes of a frustum. -/
def Frustum.planes {R : Type} (f : Frustum R) : List (Plane R) :=
  [f.near, f.far, f.left, f.right, f.top, f.bottom]

/-- Modelled from the spec: the signed distance of the centre `p` from a plane. -/
def signedDistance {R : Type} [LinearOrderedRing R] (pl : Plane R) (p : Vec3 R) : R :=
  pl.normal.x * p.x + pl.normal.y * p.y + pl.normal.z * p.z + pl.d

/-- Modelled from the spec: the sphere lies entirely on the outside of the plane, its centre
being further out than its radius. -/
def outside {R : Type} [LinearOrderedRing R] (pl : Plane R) (sph : Sphere R) : Prop :=
  signedDistance pl sph.m_position < -sph.m_radius

/-- Modelled from the spec: the sphere lies entirely on the inside of the plane. -/
def inside {R : Type} [LinearOrderedRing R] (pl : Plane R) (sph : Sphere R) : Prop :=
  sph.m_radius ≤ signedDistance pl sph.m_position

/-- Modelled from the spec: the sphere straddles the plane, with points on both sides or on
the plane itself. -/
def straddles {R : Type} [LinearOrderedRing R] (pl : Plane R) (sph : Sphere R) : Prop :=
  -sph.m_radius ≤ signedDistance pl sph.m_position ∧
    signedDistance pl sph.m_position < sph.m_radius

/-- Modelled from the spec: the sphere-against-frustum test of `cullToFrustum`, "a sphere is in
unless it lies entirely on the outside of any one plane". -/
def isSphereInside {R : Type} [LinearOrderedRing R] (f : Frustum R) (sph : Sphere R) : Bool :=
  f.planes.all (fun pl => !decide (signedDistance pl sph.m_position < -sph.m_radius))

/-- Modelled from the spec: the class behind `CullingSystem`, the dense array of spheres, the
two result buffers, and the frustum of an asynchronous cull that is in flight. -/
structure CullingSystemImpl (R : Type) where
  m_spheres : List (Sphere R)
  m_result : List Nat
  m_result_async : List Nat
  m_pending : Option (Frustum R)

/-- Modelled from the spec: the test applied to the slot `i` of the array of spheres. -/
def visible {R : Type} [LinearOrderedRing R] (f : Frustum R) (spheres : List (Sphere R))
    (i : Nat) : Bool :=
  match spheres[i]? with
  | some sph => isSphereInside f sph
  | none => false

/-- Modelled from the spec: the work on one run of slots, the surviving slot indices. -/
def cullSlots {R : Type} [LinearOrderedRing R] (f : Frustum R) (spheres : List (Sphere R))
    (slots : List Nat) : List Nat :=
  slots.filter (visible f spheres)

/-- Modelled from the spec: `cullToFrustum` tests every stored sphere and overwrites the
synchronous result buffer with the surviving slot indices. -/
def cullToFrustum {R : Type} [LinearOrderedRing R] (f : Frustum R) (s : CullingSystemImpl R) :
    CullingSystemImpl R :=
  { s with m_result := cullSlots f s.m_spheres (List.range s.m_spheres.length) }

/-- Modelled from the spec: `getResult` returns the synchronous result buffer. -/
def getResult {R : Type} (s : CullingSystemImpl R) : List Nat := s.m_result

/-- Modelled from the spec: `cullToFrustumAsync` submits the work and returns without waiting
for it. -/
def cullToFrustumAsync {R : Type} (f : Frustum R) (s : CullingSystemImpl R) :
    CullingSystemImpl R :=
  { s with m_pending := some f }

/-- Modelled from the spec: `getResultAsync` waits for the chunks of the cull in flight;
`done` is the list of the chunks, each a run of slots, in the order in which they
completed, and the asynchronous buffer gets the survivors of each chunk in that order.
With no cull in flight the buffer is returned as it is. -/
def getResultAsync {R : Type} [LinearOrderedRing R] (done : List (List Nat))
    (s : CullingSystemImpl R) : CullingSystemImpl R × List Nat :=
  match s.m_pending with
  | none => (s, s.m_result_async)
  | some f =>
    let result := done.flatMap (cullSlots f s.m_spheres)
    ({ s with m_result_async := result, m_pending := none }, result)

/-- A view volume spanning `[-10, 10]` on each axis. -/
def boxFrustum : Frustum Int :=
  { near := ⟨⟨0, 0, 1⟩, 10⟩, far := ⟨⟨0, 0, -1⟩, 10⟩,
    left := ⟨⟨1, 0, 0⟩, 10⟩, right := ⟨⟨-1, 0, 0⟩, 10⟩,
    top := ⟨⟨0, -1, 0⟩, 10⟩, bottom := ⟨⟨0, 1, 0⟩, 10⟩ }

/-- A culling system with three spheres of radius 1: at the origin, at `(1000,0,0)`, and at
`(10,0,0)` across the right plane of the box. -/
def sampleCulling : CullingSystemImpl Int :=
  { m_spheres := [⟨⟨0, 0, 0⟩, 1⟩, ⟨⟨1000, 0, 0⟩, 1⟩, ⟨⟨10, 0, 0⟩, 1⟩],
    m_result := [], m_result_async := [], m_pending := none }

/-! ## Lemmas on the hash maps -/

section Maps

variable {α : Type}

theorem find_eq_none_iff (m : List (Int × α)) (k : Int) : find m k = none ↔ k ∉ keys m := by
  induction m with
  | nil => simp [find, keys]
  | cons e rest ih =>
    obtain ⟨k1, v1⟩ := e
    by_cases h : k1 = k
    · simp [find, keys, h]
    · have h2 : ¬ k = k1 := fun h3 => h h3.symm
      simpa [find, keys, h, h2] using ih

theorem mem_of_find (m : List (Int × α)) (k : Int) (v : α) (h : find m k = some v) :
    (k, v) ∈ m := by
  induction m with
  | nil => simp [find] at h
  | cons e rest ih =>
    obtain ⟨k1, v1⟩ := e
    by_cases h1 : k1 = k
    · simp [find, h1] at h
      simp [h1, h]
    · simp [find, h1] at h
      exact List.mem_cons_of_mem _ (ih h)

theorem find_of_mem (m : List (Int × α)) (k : Int) (v : α) (hn : (keys m).Nodup)
    (h : (k, v) ∈ m) : find m k = some v := by
  induction m with
  | nil => simp at h
  | cons e rest ih =>
    obtain ⟨k1, v1⟩ := e
    simp only [keys, List.map_cons, List.nodup_cons] at hn
    rcases List.mem_cons.mp h with h1 | h1
    · injection h1 with h2 h3
      simp [find, h2, h3]
    · have hk : k ∈ keys rest := List.mem_map.mpr ⟨(k, v), h1, rfl⟩
      have hne : ¬ k1 = k := fun h2 => hn.1 (h2 ▸ hk)
      simpa [find, hne] using ih hn.2 h1

theorem find_append (m m2 : List (Int × α)) (k : Int) :
    find (m ++ m2) k = (find m k).or (find m2 k) := by
  induction m with
  | nil => simp [find]
  | cons e rest ih =>
    obtain ⟨k1, v1⟩ := e
    by_cases h : k1 = k
    · simp [find, h]
    · simpa [find, h] using ih

theorem find_insert (m : List (Int × α)) (k : Int) (v : α) (k1 : Int) :
    find (insert m k v) k1 = (find m k1).or (if k = k1 then some v else none) := by
  rw [insert, find_append]
  rfl

theorem nodup_snoc (l : List Int) (a : Int) (hl : l.Nodup) (ha : a ∉ l) : (l ++ [a]).Nodup := by
  simp [List.nodup_append, hl, ha]

theorem keys_insert (m : List (Int × α)) (k : Int) (v : α) : keys (insert m k v) = keys m ++ [k] := by
  simp [keys, insert]

theorem erase_sublist (m : List (Int × α)) (k : Int) : (erase m k).Sublist m := by
  induction m with
  | nil => simp [erase]
  | cons e rest ih =>
    obtain ⟨k1, v1⟩ := e
    by_cases h : k1 = k
    · simp [erase, h]
    · simpa [erase, h] using ih

theorem keys_erase_sublist (m : List (Int × α)) (k : Int) : (keys (erase m k)).Sublist (keys m) :=
  (erase_sublist m k).map _

theorem find_erase_ne (m : List (Int × α)) (k k1 : Int) (h : k1 ≠ k) :
    find (erase m k) k1 = find m k1 := by
  induction m with
  | nil => simp [erase]
  | cons e rest ih =>
    obtain ⟨k2, v2⟩ := e
    by_cases h2 : k2 = k
    · subst h2
      have h3 : ¬ k2 = k1 := fun h4 => h h4.symm
      simp [erase, find, h3]
    · by_cases h3 : k2 = k1
      · subst h3
        simp [erase, find, h2]
      · simpa [erase, find, h2, h3] using ih

theorem find_erase_self (m : List (Int × α)) (k : Int) (hn : (keys m).Nodup) :
    find (erase m k) k = none := by
  induction m with
  | nil => simp [erase, find]
  | cons e rest ih =>
    obtain ⟨k1, v1⟩ := e
    simp only [keys, List.map_cons, List.nodup_cons] at hn
    by_cases h : k1 = k
    · subst h
      simpa [erase] using (find_eq_none_iff rest k1).mpr hn.1
    · simpa [erase, find, h] using ih hn.2

theorem keys_modify (m : List (Int × α)) (k : Int) (f : α → α) : keys (modify m k f) = keys m := by
  induction m with
  | nil => simp [modify]
  | cons e rest ih =>
    obtain ⟨k1, v1⟩ := e
    by_cases h : k1 = k
    · simp [modify, keys, h]
    · simpa [modify, keys, h] using ih

theorem find_modify (m : List (Int × α)) (k : Int) (f : α → α) (k1 : Int) :
    find (modify m k f) k1 = if k1 = k then (find m k).map f else find m k1 := by
  induction m with
  | nil => simp [modify, find]
  | cons e rest ih =>
    obtain ⟨k2, v2⟩ := e
    by_cases h : k2 = k
    · by_cases h1 : k1 = k
      · simp [modify, find, h, h1]
      · have h3 : ¬ k = k1 := fun h4 => h1 h4.symm
        simp [modify, find, h, h1, h3]
    · by_cases h1 : k1 = k
      · subst h1
        simpa [modify, find, h] using ih
      · by_cases h3 : k2 = k1
        · simp [modify, find, h, h1, h3]
        · simpa [modify, find, h, h1, h3] using ih

theorem length_modify (m : List (Int × α)) (k : Int) (f : α → α) :
    (modify m k f).length = m.length := by
  have := congrArg List.length (keys_modify m k f)
  simpa [keys] using this

end Maps

/-! ## Lemmas on the arrays of child records -/

theorem entities_eraseChild_sublist (cs : List (Child M)) (c : Int) :
    (entities (eraseChild cs c)).Sublist (entities cs) := by
  induction cs with
  | nil => simp [eraseChild]
  | cons ch rest ih =>
    by_cases h : ch.m_entity = c
    · simp [eraseChild, entities, h]
    · simpa [eraseChild, entities, h] using ih

theorem not_mem_eraseChild (cs : List (Child M)) (c : Int) (hn : (entities cs).Nodup) :
    c ∉ entities (eraseChild cs c) := by
  induction cs with
  | nil => simp [eraseChild, entities]
  | cons ch rest ih =>
    simp only [entities, List.map_cons, List.nodup_cons] at hn
    by_cases h : ch.m_entity = c
    · subst h
      simpa [eraseChild, entities] using hn.1
    · have h1 : ¬ c = ch.m_entity := fun h2 => h h2.symm
      have := ih hn.2
      simp only [entities] at this
      simp [eraseChild, entities, h, h1, this]

theorem mem_eraseChild_ne (cs : List (Child M)) (c c1 : Int) (h : c1 ≠ c) :
    c1 ∈ entities (eraseChild cs c) ↔ c1 ∈ entities cs := by
  induction cs with
  | nil => simp [eraseChild]
  | cons ch rest ih =>
    simp only [entities] at ih
    by_cases h1 : ch.m_entity = c
    · subst h1
      simp [eraseChild, entities, h]
    · simp [eraseChild, entities, h1, ih]

theorem eraseChild_of_not_mem (cs : List (Child M)) (c : Int) (h : c ∉ entities cs) :
    eraseChild cs c = cs := by
  induction cs with
  | nil => simp [eraseChild]
  | cons ch rest ih =>
    simp only [entities, List.map_cons, List.mem_cons, not_or] at h
    have h1 : ¬ ch.m_entity = c := fun h2 => h.1 h2.symm
    have h3 : c ∉ entities rest := h.2
    simp [eraseChild, h1, ih h3]

theorem eraseChild_eq_filter (cs : List (Child M)) (c : Int) (hn : (entities cs).Nodup) :
    eraseChild cs c = cs.filter (fun ch => decide (ch.m_entity ≠ c)) := by
  induction cs with
  | nil => simp [eraseChild]
  | cons ch rest ih =>
    simp only [entities, List.map_cons, List.nodup_cons] at hn
    by_cases h : ch.m_entity = c
    · subst h
      have h1 : ch.m_entity ∉ entities rest := hn.1
      have h2 := eraseChild_of_not_mem rest ch.m_entity h1
      have h3 := ih hn.2
      rw [h2] at h3
      simpa [eraseChild] using h3
    · simp [eraseChild, h, ih hn.2]

theorem entities_setLocalMatrix (cs : List (Child M)) (e : Int) (m : M) :
    entities (setLocalMatrix cs e m) = entities cs := by
  induction cs with
  | nil => simp [setLocalMatrix]
  | cons ch rest ih =>
    simp only [entities] at ih
    by_cases h : ch.m_entity = e
    · simp [setLocalMatrix, entities, h]
    · simp [setLocalMatrix, entities, h, ih]

/-! ## The invariant is kept -/

theorem consistent_create (world : Int → M) (ω : Ω) : Consistent (create world ω) where
  parents_nodup := by simp [create, keys]
  children_nodup := by simp [create, keys]
  entities_nodup := by simp [create, find]
  link := by simp [create, find]
  parent_nonneg := by simp [create, find]
  idle := rfl

theorem consistent_bindListener (s : HierarchyImpl M Ω) (l : Listener M Ω) (hs : Consistent s) :
    Consistent (bindListener s l) where
  parents_nodup := hs.parents_nodup
  children_nodup := hs.children_nodup
  entities_nodup := hs.entities_nodup
  link := hs.link
  parent_nonneg := hs.parent_nonneg
  idle := hs.idle

/-! ## The first half of `setParent` -/

theorem detach_cases (s s1 : HierarchyImpl M Ω) (c : Int) (h : detach s c = some s1) :
    (find s.m_parents c = none ∧ s1 = s) ∨
    (∃ o cs, find s.m_parents c = some o ∧ find s.m_children o = some cs ∧
      s1 = { s with
        m_children := modify s.m_children o (fun children => eraseChild children c),
        m_parents := erase s.m_parents c }) := by
  unfold detach at h
  cases hp : find s.m_parents c with
  | none =>
    rw [hp] at h
    simp only [Option.some.injEq] at h
    exact Or.inl ⟨rfl, h.symm⟩
  | some o =>
    rw [hp] at h
    dsimp only at h
    cases hc : find s.m_children o with
    | none => rw [hc] at h; simp at h
    | some cs =>
      rw [hc] at h
      simp only [Option.some.injEq] at h
      exact Or.inr ⟨o, cs, rfl, hc, h.symm⟩

theorem detach_some (s : HierarchyImpl M Ω) (c : Int) (hs : Consistent s) :
    ∃ s1, detach s c = some s1 := by
  unfold detach
  cases hp : find s.m_parents c with
  | none => exact ⟨s, rfl⟩
  | some o =>
    obtain ⟨cs, hcs, _⟩ := (hs.link c o).mp hp
    simp [hcs]

theorem detach_frame (s s1 : HierarchyImpl M Ω) (c : Int) (h : detach s c = some s1) :
    s1.world = s.world ∧ s1.m_parent_set = s.m_parent_set ∧ s1.observed = s.observed ∧
    s1.m_is_processing = s.m_is_processing ∧ keys s1.m_children = keys s.m_children ∧
    s1.m_parents.Sublist s.m_parents := by
  rcases detach_cases s s1 c h with ⟨_, h1⟩ | ⟨o, cs, _, _, h1⟩
  · subst h1
    simp
  · subst h1
    simp [keys_modify, erase_sublist]

theorem detach_find_parents (s s1 : HierarchyImpl M Ω) (c : Int) (hs : Consistent s)
    (h : detach s c = some s1) (c1 : Int) :
    find s1.m_parents c1 = if c1 = c then none else find s.m_parents c1 := by
  rcases detach_cases s s1 c h with ⟨h0, h1⟩ | ⟨o, cs, _, _, h1⟩
  · subst h1
    by_cases h2 : c1 = c
    · simp [h2, h0]
    · simp [h2]
  · subst h1
    by_cases h2 : c1 = c
    · subst h2
      simpa using find_erase_self s.m_parents c1 hs.parents_nodup
    · simpa [h2] using find_erase_ne s.m_parents c c1 h2

theorem detach_find_children (s s1 : HierarchyImpl M Ω) (c : Int) (hs : Consistent s)
    (h : detach s c = some s1) (p : Int) :
    find s1.m_children p = (find s.m_children p).map (fun cs => eraseChild cs c) := by
  rcases detach_cases s s1 c h with ⟨h0, h1⟩ | ⟨o, cs, ho, _, h1⟩
  · subst h1
    cases hc : find s1.m_children p with
    | none => rfl
    | some cs =>
      have hnot : c ∉ entities cs := by
        intro hmem
        have := (hs.link c p).mpr ⟨cs, hc, hmem⟩
        rw [h0] at this
        cases this
      simp [eraseChild_of_not_mem cs c hnot]
  · subst h1
    simp only [find_modify]
    by_cases h2 : p = o
    · simp [h2]
    · simp only [h2, if_false]
      cases hc : find s.m_children p with
      | none => rfl
      | some cs1 =>
        have hnot : c ∉ entities cs1 := by
          intro hmem
          have := (hs.link c p).mpr ⟨cs1, hc, hmem⟩
          rw [ho] at this
          injection this with h3
          exact h2 h3.symm
        simp [eraseChild_of_not_mem cs1 c hnot]

theorem consistent_detach (s s1 : HierarchyImpl M Ω) (c : Int) (hs : Consistent s)
    (h : detach s c = some s1) : Consistent s1 := by
  obtain ⟨_, _, _, hproc, hkeys, hsub⟩ := detach_frame s s1 c h
  have hfp := detach_find_parents s s1 c hs h
  have hfc := detach_find_children s s1 c hs h
  refine ⟨?_, ?_, ?_, ?_, ?_, ?_⟩
  · exact (hsub.map Prod.fst).nodup hs.parents_nodup
  · rw [hkeys]; exact hs.children_nodup
  · intro p cs hcs
    rw [hfc] at hcs
    cases hc : find s.m_children p with
    | none => rw [hc] at hcs; simp at hcs
    | some cs0 =>
      rw [hc] at hcs
      simp only [Option.map_some', Option.some.injEq] at hcs
      subst hcs
      exact (entities_eraseChild_sublist cs0 c).nodup (hs.entities_nodup p cs0 hc)
  · intro c1 p
    rw [hfp, hfc]
    by_cases h1 : c1 = c
    · subst h1
      simp only [if_true]
      constructor
      · intro h2; cases h2
      · rintro ⟨cs, hcs, hmem⟩
        cases hc : find s.m_children p with
        | none => rw [hc] at hcs; simp at hcs
        | some cs0 =>
          rw [hc] at hcs
          simp only [Option.map_some', Option.some.injEq] at hcs
          subst hcs
          exact absurd hmem (not_mem_eraseChild cs0 c1 (hs.entities_nodup p cs0 hc))
    · simp only [h1, if_false]
      rw [hs.link c1 p]
      constructor
      · rintro ⟨cs, hcs, hmem⟩
        exact ⟨eraseChild cs c, by simp [hcs], (mem_eraseChild_ne cs c c1 h1).mpr hmem⟩
      · rintro ⟨cs, hcs, hmem⟩
        cases hc : find s.m_children p with
        | none => rw [hc] at hcs; simp at hcs
        | some cs0 =>
          rw [hc] at hcs
          simp only [Option.map_some', Option.some.injEq] at hcs
          subst hcs
          exact ⟨cs0, rfl, (mem_eraseChild_ne cs0 c c1 h1).mp hmem⟩
  · intro c1 p hp
    rw [hfp] at hp
    by_cases h1 : c1 = c
    · simp [h1] at hp
    · simp only [h1, if_false] at hp
      exact hs.parent_nonneg c1 p hp
  · rw [hproc]; exact hs.idle

/-! ## The second half of `setParent` -/

section Attach

variable [Mul M] [Inv M]

theorem attach_frame (s : HierarchyImpl M Ω) (c p : Int) :
    (attach s c p).world = s.world ∧ (attach s c p).m_parent_set = s.m_parent_set ∧
    (attach s c p).observed = s.observed ∧
    (attach s c p).m_is_processing = s.m_is_processing := by
  unfold attach
  by_cases h : 0 ≤ p
  · simp [h]
  · simp [h]

theorem attach_of_neg (s : HierarchyImpl M Ω) (c p : Int) (h : ¬ 0 ≤ p) : attach s c p = s := by
  simp [attach, h]

theorem attach_find_parents (s : HierarchyImpl M Ω) (c p : Int) (h : 0 ≤ p) (c1 : Int) :
    find (attach s c p).m_parents c1 =
      (find s.m_parents c1).or (if c = c1 then some p else none) := by
  simp only [attach, h, if_true]
  exact find_insert s.m_parents c p c1

theorem attach_find_children (s : HierarchyImpl M Ω) (c p : Int) (h : 0 ≤ p) (p1 : Int) :
    find (attach s c p).m_children p1 =
      if p1 = p then
        some ((find s.m_children p).getD [] ++
          [{ m_entity := c, m_local_matrix := (s.world p)⁻¹ * s.world c }])
      else find s.m_children p1 := by
  simp only [attach, h, if_true]
  cases hc : find s.m_children p with
  | some cs =>
    simp only [find_modify, hc]
    rfl
  | none =>
    simp only [find_modify, find_insert, hc]
    by_cases h1 : p1 = p
    · simp [h1]
    · have h2 : ¬ p = p1 := fun h3 => h1 h3.symm
      simp [h1, h2]

theorem attach_keys_children (s : HierarchyImpl M Ω) (c p : Int) (h : 0 ≤ p) :
    keys (attach s c p).m_children =
      match find s.m_children p with
      | some _ => keys s.m_children
      | none => keys s.m_children ++ [p] := by
  simp only [attach, h, if_true]
  cases hc : find s.m_children p with
  | some cs => simp [keys_modify]
  | none => simp [keys_modify, keys_insert]

theorem consistent_attach (s : HierarchyImpl M Ω) (c p : Int) (hs : Consistent s)
    (hnone : find s.m_parents c = none) : Consistent (attach s c p) := by
  by_cases h : 0 ≤ p
  swap
  · rw [attach_of_neg s c p h]; exact hs
  have hfp := attach_find_parents s c p h
  have hfc := attach_find_children s c p h
  have hnot : ∀ p1 cs, find s.m_children p1 = some cs → c ∉ entities cs := by
    intro p1 cs hcs hmem
    have := (hs.link c p1).mpr ⟨cs, hcs, hmem⟩
    rw [hnone] at this
    cases this
  refine ⟨?_, ?_, ?_, ?_, ?_, ?_⟩
  · have : keys (attach s c p).m_parents = keys s.m_parents ++ [c] := by
      simp only [attach, h, if_true]
      exact keys_insert s.m_parents c p
    rw [this]
    have hc : c ∉ keys s.m_parents := (find_eq_none_iff _ _).mp hnone
    exact nodup_snoc _ _ hs.parents_nodup hc
  · rw [attach_keys_children s c p h]
    cases hc : find s.m_children p with
    | some cs => exact hs.children_nodup
    | none =>
      have hp : p ∉ keys s.m_children := (find_eq_none_iff _ _).mp hc
      exact nodup_snoc _ _ hs.children_nodup hp
  · intro p1 cs hcs
    rw [hfc] at hcs
    by_cases h1 : p1 = p
    · simp only [h1, if_true, Option.some.injEq] at hcs
      subst hcs
      cases hc : find s.m_children p with
      | none => simp [entities]
      | some cs0 =>
        have h2 := hs.entities_nodup p cs0 hc
        have h3 := hnot p cs0 hc
        simp only [entities] at h2 h3
        simp only [entities, Option.getD_some, List.map_append, List.map_cons, List.map_nil]
        exact nodup_snoc _ _ h2 h3
    · simp only [h1, if_false] at hcs
      exact hs.entities_nodup p1 cs hcs
  · intro c1 p1
    rw [hfp, hfc]
    by_cases h1 : c1 = c
    · subst h1
      rw [hnone]
      simp only [if_true]
      by_cases h2 : p1 = p
      · subst h2
        simp [entities]
        exact ⟨_, Or.inr rfl, rfl⟩
      · have h3 : ¬ p = p1 := fun h4 => h2 h4.symm
        simp only [h2, if_false, Option.some.injEq, h3, false_iff, Option.none_or]
        rintro ⟨cs, hcs, hmem⟩
        exact hnot p1 cs hcs hmem
    · have h1b : ¬ c = c1 := fun h2 => h1 h2.symm
      have hleft : (find s.m_parents c1).or (if c = c1 then some p else none) =
          find s.m_parents c1 := by
        cases find s.m_parents c1 <;> simp [h1b]
      rw [hleft, hs.link c1 p1]
      by_cases h2 : p1 = p
      · subst h2
        simp only [if_true, Option.some.injEq, exists_eq_left']
        cases hc : find s.m_children p1 with
        | none => simp [entities, h1]
        | some cs0 => simp [entities, h1]
      · simp only [h2, if_false]
  · intro c1 p1 hp
    rw [hfp] at hp
    cases hc : find s.m_parents c1 with
    | some x =>
      rw [hc] at hp
      simp only [Option.or_some, Option.some.injEq] at hp
      subst hp
      exact hs.parent_nonneg c1 x hc
    | none =>
      rw [hc] at hp
      by_cases h1 : c = c1
      · simp only [h1, if_true, Option.none_or, Option.some.injEq] at hp
        rw [← hp]; exact h
      · simp [h1] at hp
  · rw [(attach_frame s c p).2.2.2]; exact hs.idle

end Attach

/-! ## `setParent` on a consistent store -/

section SetParent

variable [Mul M] [Inv M]

theorem setParent_cases (s s2 : HierarchyImpl M Ω) (c p : Int) (h : setParent s c p = some s2) :
    ∃ s1, detach s c = some s1 ∧ s2 = notifyParentSet (attach s1 c p) c p := by
  unfold setParent at h
  cases hd : detach s c with
  | none => rw [hd] at h; simp at h
  | some s1 =>
    rw [hd] at h
    simp only [Option.some.injEq] at h
    exact ⟨s1, rfl, h.symm⟩

theorem setParent_some (s : HierarchyImpl M Ω) (c p : Int) (hs : Consistent s) :
    ∃ s2, setParent s c p = some s2 := by
  obtain ⟨s1, h1⟩ := detach_some s c hs
  exact ⟨notifyParentSet (attach s1 c p) c p, by simp [setParent, h1]⟩

theorem consistent_setParent (s s2 : HierarchyImpl M Ω) (c p : Int) (hs : Consistent s)
    (h : setParent s c p = some s2) : Consistent s2 := by
  obtain ⟨s1, h1, h2⟩ := setParent_cases s s2 c p h
  have hs1 := consistent_detach s s1 c hs h1
  have hnone : find s1.m_parents c = none := by
    simpa using detach_find_parents s s1 c hs h1 c
  have := consistent_attach s1 c p hs1 hnone
  subst h2
  exact ⟨this.1, this.2, this.3, this.4, this.5, this.6⟩

theorem setParent_frame (s s2 : HierarchyImpl M Ω) (c p : Int) (h : setParent s c p = some s2) :
    s2.world = s.world ∧ s2.m_parent_set = s.m_parent_set ∧
    s2.m_is_processing = s.m_is_processing ∧
    s2.observed = invoke s.m_parent_set s2.m_parents s2.m_children c p s.observed := by
  obtain ⟨s1, h1, h2⟩ := setParent_cases s s2 c p h
  obtain ⟨hw, hl, ho, hp, _, _⟩ := detach_frame s s1 c h1
  obtain ⟨hw2, hl2, ho2, hp2⟩ := attach_frame s1 c p
  subst h2
  simp only [notifyParentSet]
  rw [hw2, hl2, ho2, hp2, hw, hl, ho, hp]
  exact ⟨rfl, rfl, rfl, rfl⟩

theorem setParent_find_parents (s s2 : HierarchyImpl M Ω) (c p : Int) (hs : Consistent s)
    (h : setParent s c p = some s2) (c1 : Int) :
    find s2.m_parents c1 =
      if c1 = c then (if 0 ≤ p then some p else none) else find s.m_parents c1 := by
  obtain ⟨s1, h1, h2⟩ := setParent_cases s s2 c p h
  have hd := detach_find_parents s s1 c hs h1
  subst h2
  simp only [notifyParentSet]
  by_cases hp : 0 ≤ p
  · rw [attach_find_parents s1 c p hp, hd]
    by_cases hc : c1 = c
    · simp [hc, hp]
    · have hc2 : ¬ c = c1 := fun h3 => hc h3.symm
      simp only [hc, hc2, if_false]
      cases find s.m_parents c1 <;> simp
  · rw [attach_of_neg s1 c p hp, hd]
    simp [hp]

theorem setParent_find_children (s s2 : HierarchyImpl M Ω) (c p : Int) (hs : Consistent s)
    (h : setParent s c p = some s2) (p1 : Int) :
    find s2.m_children p1 =
      if 0 ≤ p ∧ p1 = p then
        some (eraseChild ((find s.m_children p).getD []) c ++
          [{ m_entity := c, m_local_matrix := (s.world p)⁻¹ * s.world c }])
      else (find s.m_children p1).map (fun cs => eraseChild cs c) := by
  obtain ⟨s1, h1, h2⟩ := setParent_cases s s2 c p h
  have hd := detach_find_children s s1 c hs h1
  obtain ⟨hw, _⟩ := detach_frame s s1 c h1
  subst h2
  simp only [notifyParentSet]
  by_cases hp : 0 ≤ p
  · rw [attach_find_children s1 c p hp, hd, hd, hw]
    by_cases hp1 : p1 = p
    · simp only [hp1, hp, and_self, if_true]
      cases find s.m_children p <;> simp [eraseChild]
    · simp [hp1]
  · rw [attach_of_neg s1 c p hp, hd]
    simp [hp]

theorem setParent_of_neg (s s2 : HierarchyImpl M Ω) (c p : Int) (hp : ¬ 0 ≤ p)
    (h : setParent s c p = some s2) :
    keys s2.m_children = keys s.m_children ∧ s2.m_parents.Sublist s.m_parents := by
  obtain ⟨s1, h1, h2⟩ := setParent_cases s s2 c p h
  obtain ⟨_, _, _, _, hk, hsub⟩ := detach_frame s s1 c h1
  subst h2
  simp only [notifyParentSet]
  rw [attach_of_neg s1 c p hp]
  exact ⟨hk, hsub⟩

theorem getParent_setParent (s s2 : HierarchyImpl M Ω) (c p : Int) (hs : Consistent s)
    (h : setParent s c p = some s2) (c1 : Int) :
    getParent s2 c1 = if c1 = c then (if 0 ≤ p then p else INVALID) else getParent s c1 := by
  unfold getParent
  rw [setParent_find_parents s s2 c p hs h c1]
  by_cases hc : c1 = c
  · by_cases hp : 0 ≤ p
    · simp [hc, hp]
    · simp [hc, hp]
  · simp [hc]

/-! ## Sequences of `setParent` calls, and `deserialize` -/

theorem setParents_some (calls : List (Int × Int)) :
    ∀ s : HierarchyImpl M Ω, Consistent s →
      ∃ s2, setParents s calls = some s2 ∧ Consistent s2 := by
  induction calls with
  | nil => intro s hs; exact ⟨s, rfl, hs⟩
  | cons call rest ih =>
    intro s hs
    obtain ⟨c, p⟩ := call
    obtain ⟨s1, h1⟩ := setParent_some s c p hs
    obtain ⟨s2, h2, hs2⟩ := ih s1 (consistent_setParent s s1 c p hs h1)
    exact ⟨s2, by simp [setParents, h1, h2], hs2⟩

theorem readPairs_eq_setParents (calls : List (Int × Int)) (more : List Int) :
    ∀ s : HierarchyImpl M Ω,
      readPairs calls.length (calls.flatMap writePair ++ more) s = setParents s calls := by
  induction calls with
  | nil => intro s; simp [readPairs, setParents]
  | cons call rest ih =>
    intro s
    obtain ⟨c, p⟩ := call
    simp only [List.length_cons, List.flatMap_cons, writePair, List.cons_append, List.nil_append,
      readPairs, setParents]
    cases setParent s c p with
    | none => rfl
    | some s1 => exact ih s1

theorem consistent_readPairs (n : Nat) :
    ∀ (blob : List Int) (s s2 : HierarchyImpl M Ω), Consistent s →
      readPairs n blob s = some s2 → Consistent s2 := by
  induction n with
  | zero =>
    intro blob s s2 hs h
    simp only [readPairs, Option.some.injEq] at h
    exact h ▸ hs
  | succ n ih =>
    intro blob s s2 hs h
    match blob, h with
    | [], h => simp [readPairs] at h
    | [_], h => simp [readPairs] at h
    | c :: p :: rest, h =>
      simp only [readPairs] at h
      cases h1 : setParent s c p with
      | none => rw [h1] at h; simp at h
      | some s1 =>
        rw [h1] at h
        exact ih rest s1 s2 (consistent_setParent s s1 c p hs h1) h

theorem consistent_deserialize (blob : List Int) (s s2 : HierarchyImpl M Ω) (hs : Consistent s)
    (h : deserialize s blob = some s2) : Consistent s2 := by
  cases blob with
  | nil => simp [deserialize] at h
  | cons size rest => exact consistent_readPairs size.toNat rest s s2 hs h

end SetParent

/-! ## `onEntityMoved` -/

section Moved

variable [Mul M] [Inv M]

theorem onEntityMoved_processing (fuel : Nat) (s : HierarchyImpl M Ω) (e : Int)
    (h : s.m_is_processing = true) : onEntityMoved (fuel + 1) s e = some s := by
  simp [onEntityMoved, h]

theorem onEntityMoved_processing_result (fuel : Nat) (s s1 : HierarchyImpl M Ω) (e : Int)
    (h : s.m_is_processing = true) (h1 : onEntityMoved fuel s e = some s1) : s1 = s := by
  cases fuel with
  | zero => simp [onEntityMoved] at h1
  | succ k =>
    rw [onEntityMoved_processing k s e h] at h1
    injection h1 with h2
    exact h2.symm

omit [Inv M] in
theorem moveWorld_cons (pm : M) (ch : Child M) (cs : List (Child M)) (w : Int → M) :
    moveWorld pm (ch :: cs) w =
      moveWorld pm cs (Function.update w ch.m_entity (pm * ch.m_local_matrix)) := rfl

omit [Inv M] in
theorem moveChildren_total (notify : HierarchyImpl M Ω → Int → Option (HierarchyImpl M Ω))
    (hn : ∀ t e, t.m_is_processing = true → notify t e = some t)
    (entity : Int) (pm : M) (cs : List (Child M)) (n : Nat) :
    ∀ (i : Nat) (s : HierarchyImpl M Ω), s.m_is_processing = true →
      find s.m_children entity = some cs → i + n = cs.length →
      moveChildren notify entity pm n i s =
        some { s with world := moveWorld pm (cs.drop i) s.world } := by
  induction n with
  | zero =>
    intro i s _ _ hlen
    have : cs.drop i = [] := List.drop_eq_nil_of_le (by omega)
    simp [moveChildren, this, moveWorld]
  | succ n ih =>
    intro i s hproc hfind hlen
    have hi : i < cs.length := by omega
    have hget : cs[i]? = some cs[i] := List.getElem?_eq_getElem hi
    have hdrop : cs.drop i = cs[i] :: cs.drop (i + 1) := List.drop_eq_getElem_cons hi
    have hn1 := hn { s with world := (Function.update s.world cs[i].m_entity
      (pm * cs[i].m_local_matrix)) } cs[i].m_entity hproc
    have key := ih (i + 1) { s with world := (Function.update s.world cs[i].m_entity
      (pm * cs[i].m_local_matrix)) } hproc hfind (by omega)
    simp only [moveChildren, hfind, hget, setMatrix, hn1]
    rw [key, hdrop, moveWorld_cons]

omit [Inv M] in
theorem moveChildren_result (notify : HierarchyImpl M Ω → Int → Option (HierarchyImpl M Ω))
    (hn : ∀ t e t1, t.m_is_processing = true → notify t e = some t1 → t1 = t)
    (entity : Int) (pm : M) (cs : List (Child M)) (n : Nat) :
    ∀ (i : Nat) (s s1 : HierarchyImpl M Ω), s.m_is_processing = true →
      find s.m_children entity = some cs → i + n = cs.length →
      moveChildren notify entity pm n i s = some s1 →
      s1 = { s with world := moveWorld pm (cs.drop i) s.world } := by
  induction n with
  | zero =>
    intro i s s1 _ _ hlen h
    have : cs.drop i = [] := List.drop_eq_nil_of_le (by omega)
    simp only [moveChildren, Option.some.injEq] at h
    simp [this, moveWorld, ← h]
  | succ n ih =>
    intro i s s1 hproc hfind hlen h
    have hi : i < cs.length := by omega
    have hget : cs[i]? = some cs[i] := List.getElem?_eq_getElem hi
    have hdrop : cs.drop i = cs[i] :: cs.drop (i + 1) := List.drop_eq_getElem_cons hi
    simp only [moveChildren, hfind, hget, setMatrix] at h
    generalize hnot : notify _ _ = r at h
    cases r with
    | none => simp at h
    | some t =>
      simp only at h
      have ht := hn _ _ t (by exact hproc) hnot
      subst ht
      have key := ih (i + 1) { s with world := (Function.update s.world cs[i].m_entity
        (pm * cs[i].m_local_matrix)) } s1 hproc hfind (by omega) h
      rw [key, hdrop, moveWorld_cons]

omit [Inv M] in
theorem moveAll_total (notify : HierarchyImpl M Ω → Int → Option (HierarchyImpl M Ω))
    (hn : ∀ t e, t.m_is_processing = true → notify t e = some t)
    (s : HierarchyImpl M Ω) (e : Int) (h : s.m_is_processing = true) :
    moveAll notify s e = some { s with world := movedWorld s e } := by
  unfold moveAll movedWorld
  cases hc : find s.m_children e with
  | none => rfl
  | some cs =>
    have := moveChildren_total notify hn e (s.world e) cs cs.length 0 s h hc (by simp)
    simpa using this

omit [Inv M] in
theorem moveAll_result (notify : HierarchyImpl M Ω → Int → Option (HierarchyImpl M Ω))
    (hn : ∀ t e t1, t.m_is_processing = true → notify t e = some t1 → t1 = t)
    (s s1 : HierarchyImpl M Ω) (e : Int) (h : s.m_is_processing = true)
    (h1 : moveAll notify s e = some s1) :
    s1 = { s with world := movedWorld s e } := by
  unfold moveAll at h1
  unfold movedWorld
  cases hc : find s.m_children e with
  | none =>
    rw [hc] at h1
    simp only [Option.some.injEq] at h1
    simp [← h1]
  | some cs =>
    rw [hc] at h1
    have := moveChildren_result notify hn e (s.world e) cs cs.length 0 s s1 h hc (by simp) h1
    simpa using this

theorem onEntityMoved_eq (fuel : Nat) (s : HierarchyImpl M Ω) (e : Int)
    (h : s.m_is_processing = false) : onEntityMoved (fuel + 1 + 1) s e = some (moved s e) := by
  rw [onEntityMoved]
  have := moveAll_total (onEntityMoved (fuel + 1))
    (fun t e1 ht => onEntityMoved_processing fuel t e1 ht)
    { s with m_is_processing := true } e rfl
  simp only [h, this]
  rfl

theorem onEntityMoved_result (fuel : Nat) (s s1 : HierarchyImpl M Ω) (e : Int)
    (h : s.m_is_processing = false) (h1 : onEntityMoved fuel s e = some s1) :
    s1 = moved s e := by
  cases fuel with
  | zero => simp [onEntityMoved] at h1
  | succ k =>
    rw [onEntityMoved] at h1
    simp only [h] at h1
    generalize hm : moveAll (onEntityMoved k) { s with m_is_processing := true } e = r at h1
    cases r with
    | none => simp at h1
    | some t =>
      have := moveAll_result (onEntityMoved k)
        (fun t e1 t1 ht ht1 => onEntityMoved_processing_result k t t1 e1 ht ht1)
        _ t e rfl hm
      subst this
      simp at h1
      rw [← h1]
      rfl

theorem updateLocal_frame (s : HierarchyImpl M Ω) (e : Int) :
    (updateLocal s e).world = s.world ∧ (updateLocal s e).m_parents = s.m_parents ∧
    (updateLocal s e).m_parent_set = s.m_parent_set ∧ (updateLocal s e).observed = s.observed ∧
    (updateLocal s e).m_is_processing = s.m_is_processing ∧
    keys (updateLocal s e).m_children = keys s.m_children := by
  unfold updateLocal
  split
  · simp
  · split
    · simp
    · simp [keys_modify]

theorem updateLocal_find_children (s : HierarchyImpl M Ω) (e p : Int) :
    find (updateLocal s e).m_children p =
      if find s.m_parents e = some p then
        (find s.m_children p).map
          (fun cs => setLocalMatrix cs e ((s.world p)⁻¹ * s.world e))
      else find s.m_children p := by
  unfold updateLocal
  split
  · rename_i hp
    simp [hp]
  · rename_i parent hp
    split
    · rename_i hc
      by_cases h : parent = p
      · subst h; simp [hp, hc]
      · simp [hp, h]
    · rename_i cs hc
      simp only [find_modify, hp, Option.some.injEq]
      by_cases h : parent = p
      · subst h; simp
      · have h2 : ¬ p = parent := fun h3 => h h3.symm
        simp [h, h2]

theorem moved_frame (s : HierarchyImpl M Ω) (e : Int) :
    (moved s e).world = movedWorld s e ∧ (moved s e).m_parents = s.m_parents ∧
    (moved s e).m_parent_set = s.m_parent_set ∧ (moved s e).observed = s.observed ∧
    (moved s e).m_is_processing = false ∧
    keys (moved s e).m_children = keys s.m_children := by
  obtain ⟨h1, h2, h3, h4, _, h6⟩ :=
    updateLocal_frame { s with m_is_processing := true, world := movedWorld s e } e
  exact ⟨h1, h2, h3, h4, rfl, h6⟩

theorem moved_find_children (s : HierarchyImpl M Ω) (e p : Int) :
    find (moved s e).m_children p =
      if find s.m_parents e = some p then
        (find s.m_children p).map
          (fun cs => setLocalMatrix cs e ((movedWorld s e p)⁻¹ * movedWorld s e e))
      else find s.m_children p :=
  updateLocal_find_children { s with m_is_processing := true, world := movedWorld s e } e p

theorem moved_entities (s : HierarchyImpl M Ω) (e p : Int) :
    (find (moved s e).m_children p).map entities = (find s.m_children p).map entities := by
  rw [moved_find_children]
  by_cases h : find s.m_parents e = some p
  · simp only [h, if_true, Option.map_map]
    congr 1
    funext cs
    exact entities_setLocalMatrix cs e _
  · simp [h]

theorem consistent_moved (s : HierarchyImpl M Ω) (e : Int) (hs : Consistent s) :
    Consistent (moved s e) := by
  obtain ⟨_, hp, _, _, hproc, hk⟩ := moved_frame s e
  have hent : ∀ p cs, find (moved s e).m_children p = some cs →
      ∃ cs0, find s.m_children p = some cs0 ∧ entities cs0 = entities cs := by
    intro p cs hcs
    have := moved_entities s e p
    rw [hcs] at this
    cases hc : find s.m_children p with
    | none => rw [hc] at this; simp at this
    | some cs0 =>
      rw [hc] at this
      simp only [Option.map_some', Option.some.injEq] at this
      exact ⟨cs0, rfl, this.symm⟩
  have hent2 : ∀ p cs0, find s.m_children p = some cs0 →
      ∃ cs, find (moved s e).m_children p = some cs ∧ entities cs = entities cs0 := by
    intro p cs0 hcs
    have := moved_entities s e p
    rw [hcs] at this
    cases hc : find (moved s e).m_children p with
    | none => rw [hc] at this; simp at this
    | some cs =>
      rw [hc] at this
      simp only [Option.map_some', Option.some.injEq] at this
      exact ⟨cs, rfl, this⟩
  refine ⟨?_, ?_, ?_, ?_, ?_, hproc⟩
  · rw [hp]; exact hs.parents_nodup
  · rw [hk]; exact hs.children_nodup
  · intro p cs hcs
    obtain ⟨cs0, h0, h1⟩ := hent p cs hcs
    rw [← h1]
    exact hs.entities_nodup p cs0 h0
  · intro c p
    rw [hp, hs.link c p]
    constructor
    · rintro ⟨cs0, h0, hmem⟩
      obtain ⟨cs, h1, h2⟩ := hent2 p cs0 h0
      exact ⟨cs, h1, h2 ▸ hmem⟩
    · rintro ⟨cs, h0, hmem⟩
      obtain ⟨cs0, h1, h2⟩ := hent p cs h0
      exact ⟨cs0, h1, h2 ▸ hmem⟩
  · intro c p h
    rw [hp] at h
    exact hs.parent_nonneg c p h

theorem consistent_reachable (s : HierarchyImpl M Ω) (h : Reachable s) : Consistent s := by
  induction h with
  | create world ω => exact consistent_create world ω
  | bindListener l _ ih => exact consistent_bindListener _ l ih
  | setParent child parent _ h ih => exact consistent_setParent _ _ child parent ih h
  | deserialize blob _ h ih => exact consistent_deserialize blob _ _ ih h
  | onEntityMoved fuel entity _ h ih =>
    rw [onEntityMoved_result fuel _ _ entity ih.idle h]
    exact consistent_moved _ entity ih
  | @setMatrix s0 s1 fuel entity m _ h ih =>
    have h0 : Consistent { s0 with world := Function.update s0.world entity m } :=
      ⟨ih.1, ih.2, ih.3, ih.4, ih.5, ih.6⟩
    rw [onEntityMoved_result fuel _ s1 entity h0.idle h]
    exact consistent_moved _ entity h0

end Moved

/-! ## Sequences of calls and the last call naming a child -/

theorem lastParent_cons (c0 p0 : Int) (rest : List (Int × Int)) (c : Int) :
    lastParent ((c0, p0) :: rest) c =
      if c0 = c then some ((lastParent rest c).getD p0) else lastParent rest c := by
  unfold lastParent
  by_cases h : c0 = c
  · simp [List.filter_cons, h, List.getLast?_cons]
  · simp [List.filter_cons, h]

theorem lastParent_eq_none (calls : List (Int × Int)) (c : Int)
    (h : ∀ call ∈ calls, call.1 ≠ c) : lastParent calls c = none := by
  unfold lastParent
  have : calls.filter (fun call => decide (call.1 = c)) = [] := by
    rw [List.filter_eq_nil_iff]
    intro a ha
    simpa using h a ha
  simp [this]

theorem setParents_cons (s s2 : HierarchyImpl M Ω) [Mul M] [Inv M] (c p : Int)
    (rest : List (Int × Int)) (h : setParents s ((c, p) :: rest) = some s2) :
    ∃ s1, setParent s c p = some s1 ∧ setParents s1 rest = some s2 := by
  simp only [setParents] at h
  cases h1 : setParent s c p with
  | none => rw [h1] at h; simp at h
  | some s1 =>
    rw [h1] at h
    exact ⟨s1, rfl, h⟩

theorem setParents_getParent [Mul M] [Inv M] (calls : List (Int × Int)) (c : Int) :
    ∀ s s2 : HierarchyImpl M Ω, Consistent s → setParents s calls = some s2 →
      getParent s2 c =
        ((lastParent calls c).map (fun p => if 0 ≤ p then p else INVALID)).getD
          (getParent s c) := by
  induction calls with
  | nil =>
    intro s s2 _ h
    simp only [setParents, Option.some.injEq] at h
    simp [lastParent, h]
  | cons call rest ih =>
    intro s s2 hs h
    obtain ⟨c0, p0⟩ := call
    obtain ⟨s1, h1, h2⟩ := setParents_cons s s2 c0 p0 rest h
    have hs1 := consistent_setParent s s1 c0 p0 hs h1
    rw [ih s1 s2 hs1 h2, getParent_setParent s s1 c0 p0 hs h1 c, lastParent_cons]
    by_cases hc : c0 = c
    · subst hc
      cases lastParent rest c0 <;> simp
    · have hc2 : ¬ c = c0 := fun h3 => hc h3.symm
      simp [hc, hc2]

theorem setParents_find [Mul M] [Inv M] (calls : List (Int × Int)) (c : Int) :
    ∀ s s2 : HierarchyImpl M Ω, Consistent s → setParents s calls = some s2 →
      find s2.m_parents c =
        ((lastParent calls c).map (fun p => if 0 ≤ p then some p else none)).getD
          (find s.m_parents c) := by
  induction calls with
  | nil =>
    intro s s2 _ h
    simp only [setParents, Option.some.injEq] at h
    simp [lastParent, h]
  | cons call rest ih =>
    intro s s2 hs h
    obtain ⟨c0, p0⟩ := call
    obtain ⟨s1, h1, h2⟩ := setParents_cons s s2 c0 p0 rest h
    have hs1 := consistent_setParent s s1 c0 p0 hs h1
    rw [ih s1 s2 hs1 h2, setParent_find_parents s s1 c0 p0 hs h1 c, lastParent_cons]
    by_cases hc : c0 = c
    · subst hc
      cases lastParent rest c0 <;> simp
    · have hc2 : ¬ c = c0 := fun h3 => hc h3.symm
      simp [hc, hc2]

theorem lastParent_of_nodup (m : List (Int × Int)) (c : Int) (hn : (keys m).Nodup) :
    lastParent m c = find m c := by
  induction m with
  | nil => rfl
  | cons e rest ih =>
    obtain ⟨k, v⟩ := e
    simp only [keys, List.map_cons, List.nodup_cons] at hn
    rw [lastParent_cons, ih hn.2]
    by_cases h : k = c
    · subst h
      have : find rest k = none := (find_eq_none_iff rest k).mpr hn.1
      simp [find, this]
    · simp [find, h]

theorem find_perm {α : Type} (m1 m2 : List (Int × α)) (c : Int) (hp : m1.Perm m2)
    (hn : (keys m1).Nodup) : find m1 c = find m2 c := by
  cases h : find m2 c with
  | some v =>
    exact find_of_mem m1 c v hn (hp.mem_iff.mpr (mem_of_find m2 c v h))
  | none =>
    rw [find_eq_none_iff] at h ⊢
    intro hc
    exact h ((hp.map Prod.fst).mem_iff.mp hc)

theorem length_flatMap_writePair (pairs : List (Int × Int)) :
    (pairs.flatMap writePair).length = 2 * pairs.length := by
  induction pairs with
  | nil => rfl
  | cons e rest ih =>
    simp only [List.flatMap_cons, List.length_append, ih, writePair, List.length_cons,
      List.length_nil]
    omega

theorem filter_key_length (m : List (Int × Int)) (c : Int) (hn : (keys m).Nodup)
    (hc : c ∈ keys m) : (m.filter (fun cp => decide (cp.1 = c))).length = 1 := by
  induction m with
  | nil => simp [keys] at hc
  | cons e rest ih =>
    obtain ⟨k, v⟩ := e
    simp only [keys, List.map_cons, List.nodup_cons] at hn
    by_cases h : k = c
    · subst h
      have : rest.filter (fun cp => decide (cp.1 = k)) = [] := by
        rw [List.filter_eq_nil_iff]
        intro a ha h1
        have h2 : a.1 = k := by simpa using h1
        exact hn.1 (h2 ▸ List.mem_map.mpr ⟨a, ha, rfl⟩)
      simp [List.filter_cons, this]
    · have hc1 : c ∈ keys rest := by
        simp only [keys, List.map_cons, List.mem_cons] at hc
        rcases hc with hc | hc
        · exact absurd hc.symm h
        · exact hc
      simpa [List.filter_cons, h] using ih hn.2 hc1

theorem deserialize_eq_setParents [Mul M] [Inv M] (s : HierarchyImpl M Ω)
    (pairs : List (Int × Int)) (more : List Int) :
    deserialize s ((pairs.length : Int) :: (pairs.flatMap writePair ++ more)) =
      setParents s pairs := by
  simp only [deserialize, Int.toNat_ofNat]
  exact readPairs_eq_setParents pairs more s

theorem setParents_recorder [Mul M] [Inv M] (calls : List (Int × Int)) :
    ∀ t t2 : HierarchyImpl M (List (Int × Int × Int)), Consistent t →
      t.m_parent_set = [recorder] → setParents t calls = some t2 →
      t2.observed = t.observed ++
        calls.map (fun cp => (cp.1, cp.2, if 0 ≤ cp.2 then cp.2 else INVALID)) := by
  induction calls with
  | nil =>
    intro t t2 _ _ h
    simp only [setParents, Option.some.injEq] at h
    simp [h]
  | cons call rest ih =>
    intro t t2 ht hrec h
    obtain ⟨c0, p0⟩ := call
    obtain ⟨t1, h1, h2⟩ := setParents_cons t t2 c0 p0 rest h
    have ht1 := consistent_setParent t t1 c0 p0 ht h1
    obtain ⟨_, hl, _, hobs⟩ := setParent_frame t t1 c0 p0 h1
    have hfind := setParent_find_parents t t1 c0 p0 ht h1 c0
    rw [ih t1 t2 ht1 (hl.trans hrec) h2, hobs, hrec]
    simp only [invoke, List.foldl_cons, List.foldl_nil, recorder, hfind, if_true]
    by_cases hp : 0 ≤ p0
    · simp [hp]
    · simp [hp]

/-! ## The world matrices after the first loop -/

theorem moveWorld_append [Mul M] (pm : M) (cs : List (Child M)) (ch : Child M) (w : Int → M) :
    moveWorld pm (cs ++ [ch]) w =
      Function.update (moveWorld pm cs w) ch.m_entity (pm * ch.m_local_matrix) := by
  simp [moveWorld, List.foldl_append]

theorem moveWorld_not_mem [Mul M] (pm : M) (cs : List (Child M)) (x : Int) :
    ∀ w : Int → M, x ∉ entities cs → moveWorld pm cs w x = w x := by
  induction cs with
  | nil => intro w _; rfl
  | cons ch rest ih =>
    intro w hx
    simp only [entities, List.map_cons, List.mem_cons, not_or] at hx
    rw [moveWorld_cons, ih _ hx.2, Function.update_noteq hx.1]

theorem moveWorld_mem [Mul M] (pm : M) (cs : List (Child M)) (ch : Child M) :
    ∀ w : Int → M, (entities cs).Nodup → ch ∈ cs →
      moveWorld pm cs w ch.m_entity = pm * ch.m_local_matrix := by
  induction cs with
  | nil => intro w _ h; simp at h
  | cons c0 rest ih =>
    intro w hn hmem
    simp only [entities, List.map_cons, List.nodup_cons] at hn
    rw [moveWorld_cons]
    rcases List.mem_cons.mp hmem with h | h
    · subst h
      rw [moveWorld_not_mem pm rest ch.m_entity _ hn.1, Function.update_same]
    · exact ih _ hn.2 h

theorem setMatrix_eq [Mul M] [Inv M] (fuel : Nat) (s : HierarchyImpl M Ω) (e : Int) (m : M)
    (h : s.m_is_processing = false) :
    setMatrix (onEntityMoved (fuel + 1 + 1)) s e m =
      some (moved { s with world := Function.update s.world e m } e) :=
  onEntityMoved_eq fuel { s with world := Function.update s.world e m } e h

theorem sampleStore_reachable : Reachable sampleStore :=
  Reachable.setParent 3 0 (Reachable.setParent 2 1 (Reachable.setParent 1 0
    (Reachable.create sampleWorld ()) rfl) rfl) rfl

/-! ## The properties of the specification -/

/-- C1. After any sequence of `setParent` calls on a reachable store, `getParent(c)` is the
parent argument of the last call that named `c` as child, that argument being a handle
or the sentinel; and when no call of the sequence names `c`, `getParent(c)` is what it
was before the sequence. -/
theorem getParent_after_calls [Mul M] [Inv M] (s : HierarchyImpl M Ω) (hs : Reachable s)
    (calls : List (Int × Int)) :
    ∃ s2, setParents s calls = some s2 ∧
      (∀ c p, lastParent calls c = some p → (0 ≤ p ∨ p = INVALID) → getParent s2 c = p) ∧
      (∀ c, (∀ call ∈ calls, call.1 ≠ c) → getParent s2 c = getParent s c) := by
  have hc := consistent_reachable s hs
  obtain ⟨s2, h2, _⟩ := setParents_some calls s hc
  refine ⟨s2, h2, ?_, ?_⟩
  · intro c p hlast hp
    rw [setParents_getParent calls c s s2 hc h2, hlast]
    rcases hp with hp | hp
    · simp [hp]
    · subst hp
      simp [INVALID]
  · intro c hno
    rw [setParents_getParent calls c s s2 hc h2, lastParent_eq_none calls c hno]
    rfl

/-- Witness of C1: on the empty store, after `(1,0)`, `(2,0)`, `(1,3)`, `(2,NONE)` the parent of
entity 1 is 3, entity 2 has none, and entity 7, never named, has none as before. -/
theorem getParent_after_calls_witness :
    ∃ s2 : HierarchyImpl Translation Unit,
      setParents (create (fun _ => ⟨0, 0, 0⟩) ()) [(1, 0), (2, 0), (1, 3), (2, INVALID)] = some s2 ∧
      getParent s2 1 = 3 ∧ getParent s2 2 = INVALID ∧ getParent s2 7 = INVALID := by
  obtain ⟨s2, h, h1, h2⟩ := getParent_after_calls
    (create (fun _ => (⟨0, 0, 0⟩ : Translation)) ()) (Reachable.create _ _)
    [(1, 0), (2, 0), (1, 3), (2, INVALID)]
  exact ⟨s2, h, h1 1 3 (by decide) (by decide), h1 2 INVALID (by decide) (by decide),
    h2 7 (by decide)⟩

/-- C2. On a reachable store `setParent(c, NONE)` detaches `c`: afterwards `getParent(c)` is
the sentinel, no array of children holds a record of `c`, and the call has made no entry
of `m_parents` (its entries are among the old ones, in their order) and no array of
children (the keys of `m_children` are the same). -/
theorem setParent_none_detaches [Mul M] [Inv M] (s : HierarchyImpl M Ω) (hs : Reachable s)
    (c : Int) :
    ∃ s2, setParent s c INVALID = some s2 ∧ getParent s2 c = INVALID ∧
      (∀ p cs, (p, cs) ∈ s2.m_children → c ∉ entities cs) ∧
      s2.m_parents.Sublist s.m_parents ∧ keys s2.m_children = keys s.m_children := by
  have hc := consistent_reachable s hs
  obtain ⟨s2, h2⟩ := setParent_some s c INVALID hc
  have hc2 := consistent_setParent s s2 c INVALID hc h2
  have hneg : ¬ (0 : Int) ≤ INVALID := by decide
  obtain ⟨hk, hsub⟩ := setParent_of_neg s s2 c INVALID hneg h2
  refine ⟨s2, h2, ?_, ?_, hsub, hk⟩
  · rw [getParent_setParent s s2 c INVALID hc h2 c]
    simp [hneg]
  · intro p cs hmem
    have hf := find_of_mem s2.m_children p cs hc2.children_nodup hmem
    rw [setParent_find_children s s2 c INVALID hc h2 p] at hf
    simp only [hneg, false_and, if_false] at hf
    cases h0 : find s.m_children p with
    | none => rw [h0] at hf; simp at hf
    | some cs0 =>
      rw [h0] at hf
      simp only [Option.map_some', Option.some.injEq] at hf
      rw [← hf]
      exact not_mem_eraseChild cs0 c (hc.entities_nodup p cs0 h0)

/-- Witness of C2: entity 1, a child of 0 in the sample store, is detached. -/
theorem setParent_none_detaches_witness :
    ∃ s2, setParent sampleStore 1 INVALID = some s2 ∧ getParent s2 1 = INVALID ∧
      (∀ p cs, (p, cs) ∈ s2.m_children → (1 : Int) ∉ entities cs) ∧
      s2.m_parents.Sublist sampleStore.m_parents ∧
      keys s2.m_children = keys sampleStore.m_children :=
  setParent_none_detaches sampleStore sampleStore_reachable 1

/-- C3. Bidirectional consistency holds in every reachable store: the array of children of
`p` has a record whose entity is `c` exactly when `m_parents` maps `c` to `p`. -/
theorem bidirectional_consistency [Mul M] [Inv M] (s : HierarchyImpl M Ω) (hs : Reachable s)
    (c p : Int) :
    (∃ cs, getChildren s p = some cs ∧ ∃ ch ∈ cs, ch.m_entity = c) ↔
      find s.m_parents c = some p := by
  rw [(consistent_reachable s hs).link c p]
  simp [getChildren, entities]

/-- Witness of C3: in the sample store entity 1 has a record in the array of 0 exactly when
`m_parents` maps 1 to 0. -/
theorem bidirectional_consistency_witness :
    (∃ cs, getChildren sampleStore 0 = some cs ∧ ∃ ch ∈ cs, ch.m_entity = 1) ↔
      find sampleStore.m_parents 1 = some 0 :=
  bidirectional_consistency sampleStore sampleStore_reachable 1 0

/-- C4. A child follows its moved parent. On a reachable store, after `setParent(B, A)` with `A`
a real handle, made while `world(A) = WA` and `world(B) = WB`, setting the world matrix of
`A` to `WA1` (which raises the move notification of `A`) leaves
`world(B) = WA1 * inverse(WA) * WB`, in any transform arithmetic whose product is
associative. -/
theorem child_follows_moved_parent [Semigroup M] [Inv M] (s : HierarchyImpl M Ω)
    (hs : Reachable s) (A B : Int) (hA : 0 ≤ A) (WA1 : M) (fuel : Nat) :
    ∃ s1 s2, setParent s B A = some s1 ∧
      setMatrix (onEntityMoved (fuel + 2)) s1 A WA1 = some s2 ∧
      s2.world B = WA1 * (s.world A)⁻¹ * s.world B := by
  have hc := consistent_reachable s hs
  obtain ⟨s1, h1⟩ := setParent_some s B A hc
  have hc1 := consistent_setParent s s1 B A hc h1
  have hch := setParent_find_children s s1 B A hc h1 A
  simp only [hA, true_and, if_true] at hch
  refine ⟨s1, _, h1, setMatrix_eq fuel s1 A WA1 hc1.idle, ?_⟩
  rw [(moved_frame _ A).1]
  unfold movedWorld
  simp only [hch]
  rw [moveWorld_append]
  simp [mul_assoc]

/-- Witness of C4: `A = 0` at the origin, `B = 1` at `(1,0,0)`; moving `A` to `(5,0,0)` puts `B`
at `(6,0,0)`. -/
theorem child_follows_moved_parent_witness :
    ∃ s1 s2, setParent (create sampleWorld ()) 1 0 = some s1 ∧
      setMatrix (onEntityMoved 2) s1 0 ⟨5, 0, 0⟩ = some s2 ∧
      s2.world 1 = ⟨6, 0, 0⟩ := by
  obtain ⟨s1, s2, h1, h2, h3⟩ := child_follows_moved_parent (create sampleWorld ())
    (Reachable.create sampleWorld ()) 0 1 (by decide) ⟨5, 0, 0⟩ 0
  exact ⟨s1, s2, h1, h2, h3.trans (by decide)⟩

/-- C6. Single-level propagation. On a reachable store (the guard is clear there),
`onEntityMoved(e)` returns, and the world matrix of every entity that has no record in the
array of children of `e` is what it was; so for a chain `e -> c -> g`, with `g` a child of
`c` and `c` other than `e`, `world(g)` is unchanged. -/
theorem onEntityMoved_single_level [Mul M] [Inv M] (s : HierarchyImpl M Ω) (hs : Reachable s)
    (e : Int) :
    s.m_is_processing = false ∧
    ∃ s2, (∀ fuel, onEntityMoved (fuel + 2) s e = some s2) ∧
      (∀ x, (∀ cs, getChildren s e = some cs → x ∉ entities cs) → s2.world x = s.world x) ∧
      (∀ c g, find s.m_parents c = some e → find s.m_parents g = some c → c ≠ e →
        s2.world g = s.world g) := by
  have hc := consistent_reachable s hs
  have hworld : ∀ x, (∀ cs, getChildren s e = some cs → x ∉ entities cs) →
      (moved s e).world x = s.world x := by
    intro x hx
    rw [(moved_frame s e).1]
    unfold movedWorld
    cases h : find s.m_children e with
    | none => rfl
    | some cs => exact moveWorld_not_mem (s.world e) cs x s.world (hx cs h)
  refine ⟨hc.idle, moved s e, fun fuel => onEntityMoved_eq fuel s e hc.idle, hworld, ?_⟩
  intro c g _ hg hne
  apply hworld
  intro cs hcs hmem
  have := (hc.link g e).mpr ⟨cs, hcs, hmem⟩
  rw [hg] at this
  injection this with h1
  exact hne h1

/-- Witness of C6: in the sample store `0 -> 1 -> 2`, the notification of a move of entity 0
leaves the world matrix of the grandchild 2 as it was. -/
theorem onEntityMoved_single_level_witness :
    sampleStore.m_is_processing = false ∧
    ∃ s2, (∀ fuel, onEntityMoved (fuel + 2) sampleStore 0 = some s2) ∧
      (∀ x, (∀ cs, getChildren sampleStore 0 = some cs → x ∉ entities cs) →
        s2.world x = sampleStore.world x) ∧
      (∀ c g, find sampleStore.m_parents c = some 0 → find sampleStore.m_parents g = some c →
        c ≠ 0 → s2.world g = sampleStore.world g) :=
  onEntityMoved_single_level sampleStore sampleStore_reachable 0

/-- C7. On a reachable store, for an entity `e` that has an array of children `cs` and is not
among them, `onEntityMoved(e)` returns a store in which every record `ch` of `cs` has
`world(ch.m_entity) = P * ch.m_local_matrix`, `P` being the world matrix of `e` at entry,
and in which the array of `e` is still `cs`, local matrices included. -/
theorem onEntityMoved_children [Mul M] [Inv M] (s : HierarchyImpl M Ω) (hs : Reachable s)
    (e : Int) (cs : List (Child M)) (hcs : getChildren s e = some cs)
    (hself : e ∉ entities cs) :
    ∃ s2, (∀ fuel, onEntityMoved (fuel + 2) s e = some s2) ∧
      (∀ ch ∈ cs, s2.world ch.m_entity = s.world e * ch.m_local_matrix) ∧
      getChildren s2 e = some cs := by
  have hc := consistent_reachable s hs
  have hcs1 : find s.m_children e = some cs := hcs
  refine ⟨moved s e, fun fuel => onEntityMoved_eq fuel s e hc.idle, ?_, ?_⟩
  · intro ch hch
    rw [(moved_frame s e).1]
    unfold movedWorld
    simp only [hcs1]
    exact moveWorld_mem (s.world e) cs ch s.world (hc.entities_nodup e cs hcs1) hch
  · unfold getChildren
    rw [moved_find_children]
    have : ¬ find s.m_parents e = some e := by
      intro h
      obtain ⟨cs1, h1, h2⟩ := (hc.link e e).mp h
      rw [hcs1] at h1
      injection h1 with h3
      exact hself (h3 ▸ h2)
    simp only [this, if_false]
    exact hcs1

/-- Witness of C7: in the sample store the children 1 and 3 of entity 0 get the world matrix
of 0 times their local matrix. -/
theorem onEntityMoved_children_witness :
    ∃ s2, (∀ fuel, onEntityMoved (fuel + 2) sampleStore 0 = some s2) ∧
      (∀ ch ∈ [(⟨1, ⟨1, 0, 0⟩⟩ : Child Translation), ⟨3, ⟨0, 0, 0⟩⟩],
        s2.world ch.m_entity = sampleStore.world 0 * ch.m_local_matrix) ∧
      getChildren s2 0 = some [⟨1, ⟨1, 0, 0⟩⟩, ⟨3, ⟨0, 0, 0⟩⟩] :=
  onEntityMoved_children sampleStore sampleStore_reachable 0
    [⟨1, ⟨1, 0, 0⟩⟩, ⟨3, ⟨0, 0, 0⟩⟩] rfl (by decide)

/-- C8. On a reachable store, `setParent(c, p)` with a non-negative `p` returns a store in
which the array of children of `p` exists, ends with the record
`{c, inverse(world(p)) * world(c)}` of the world matrices at the call, and before it holds
the records that `p` had for other children, in their order and with their local
matrices. -/
theorem setParent_appends_record [Mul M] [Inv M] (s : HierarchyImpl M Ω) (hs : Reachable s)
    (c p : Int) (hp : 0 ≤ p) :
    ∃ s2, setParent s c p = some s2 ∧
      getChildren s2 p = some
        (((getChildren s p).getD []).filter (fun ch => decide (ch.m_entity ≠ c)) ++
          [{ m_entity := c, m_local_matrix := (s.world p)⁻¹ * s.world c }]) := by
  have hc := consistent_reachable s hs
  obtain ⟨s2, h2⟩ := setParent_some s c p hc
  refine ⟨s2, h2, ?_⟩
  unfold getChildren
  rw [setParent_find_children s s2 c p hc h2 p]
  simp only [hp, true_and, if_true]
  have hn : (entities ((find s.m_children p).getD [])).Nodup := by
    cases h : find s.m_children p with
    | none => simp [entities]
    | some cs => exact hc.entities_nodup p cs h
  rw [eraseChild_eq_filter _ c hn]

/-- Witness of C8: in the sample store `setParent(2, 0)` moves entity 2 under 0, after the
records of 1 and 3. -/
theorem setParent_appends_record_witness :
    ∃ s2, setParent sampleStore 2 0 = some s2 ∧
      getChildren s2 0 = some
        (((getChildren sampleStore 0).getD []).filter (fun ch => decide (ch.m_entity ≠ 2)) ++
          [{ m_entity := 2, m_local_matrix := (sampleStore.world 0)⁻¹ * sampleStore.world 2 }]) :=
  setParent_appends_record sampleStore sampleStore_reachable 2 0 (by decide)

/-- C5. Round trip. The values `serialize` writes for a reachable store, whatever the order in
which the hash map is iterated, are read by `deserialize` into a fresh store (over any
world matrices, those of the first store among them) without failure, and the fresh
store then has the same parent map: every key has the same entry, or none, in both. -/
theorem serialize_deserialize_roundtrip [Mul M] [Inv M] (s : HierarchyImpl M Ω)
    (hs : Reachable s) (it : Iteration) (world : Int → M) (ω : Ω) :
    ∃ s2, deserialize (create world ω) (serialize it s) = some s2 ∧
      ∀ c, find s2.m_parents c = find s.m_parents c := by
  have hc := consistent_reachable s hs
  have hperm := it.perm s.m_parents
  have hn : (keys (it.run s.m_parents)).Nodup :=
    ((hperm.map Prod.fst).nodup_iff).mpr hc.parents_nodup
  have hser : serialize it s =
      ((it.run s.m_parents).length : Int) :: ((it.run s.m_parents).flatMap writePair ++ []) := by
    simp [serialize, hperm.length_eq]
  obtain ⟨s2, h2, _⟩ := setParents_some (it.run s.m_parents) (create world ω)
    (consistent_create world ω)
  refine ⟨s2, ?_, ?_⟩
  · rw [hser, deserialize_eq_setParents]
    exact h2
  · intro c
    rw [setParents_find _ c _ s2 (consistent_create world ω) h2,
      lastParent_of_nodup _ c hn, find_perm _ _ c hperm hn]
    cases h : find s.m_parents c with
    | none => rfl
    | some p => simp [hc.parent_nonneg c p h]

/-- Witness of C5: the sample store, written with the hash map iterated backwards, is read back
into an empty store with the same parent map. -/
theorem serialize_deserialize_roundtrip_witness :
    ∃ s2, deserialize (create sampleWorld ())
        (serialize ⟨List.reverse, List.reverse_perm⟩ sampleStore) = some s2 ∧
      ∀ c, find s2.m_parents c = find sampleStore.m_parents c :=
  serialize_deserialize_roundtrip sampleStore sampleStore_reachable
    ⟨List.reverse, List.reverse_perm⟩ sampleWorld ()

/-- C9. On a reachable store every `setParent(child, parent)`, whatever the parent, returns a
store whose observer state is the old one put through every listener of `m_parent_set`
once, in registration order, each with the arguments `(child, parent)` and with the two
maps as they are after the update, where `getParent(child)` is the new parent (the
sentinel for a negative one). And `deserialize` of `n` pairs, on a reachable store whose
one listener is the recorder, appends to the record the `n` invocations in stored
order. -/
theorem setParent_notifies [Mul M] [Inv M] (s : HierarchyImpl M Ω) (hs : Reachable s)
    (child parent : Int) (t : HierarchyImpl M (List (Int × Int × Int))) (ht : Reachable t)
    (hrec : t.m_parent_set = [recorder]) (pairs : List (Int × Int)) (more : List Int) :
    (∃ s2, setParent s child parent = some s2 ∧
      s2.observed = s.m_parent_set.foldl
        (fun ω l => l s2.m_parents s2.m_children child parent ω) s.observed ∧
      getParent s2 child = (if 0 ≤ parent then parent else INVALID)) ∧
    (∃ t2, deserialize t ((pairs.length : Int) :: (pairs.flatMap writePair ++ more)) = some t2 ∧
      t2.observed = t.observed ++
        pairs.map (fun cp => (cp.1, cp.2, if 0 ≤ cp.2 then cp.2 else INVALID))) := by
  have hc := consistent_reachable s hs
  have hct := consistent_reachable t ht
  constructor
  · obtain ⟨s2, h2⟩ := setParent_some s child parent hc
    refine ⟨s2, h2, (setParent_frame s s2 child parent h2).2.2.2, ?_⟩
    rw [getParent_setParent s s2 child parent hc h2 child]
    simp
  · obtain ⟨t2, h2, _⟩ := setParents_some pairs t hct
    refine ⟨t2, ?_, setParents_recorder pairs t t2 hct hrec h2⟩
    rw [deserialize_eq_setParents]
    exact h2

/-- Witness of C9: the sample store re-sets the parent of entity 1; an empty store with the
recorder reads two pairs and records them in stored order. -/
theorem setParent_notifies_witness :
    (∃ s2, setParent sampleStore 1 0 = some s2 ∧
      s2.observed = sampleStore.m_parent_set.foldl
        (fun ω l => l s2.m_parents s2.m_children 1 0 ω) sampleStore.observed ∧
      getParent s2 1 = (if (0 : Int) ≤ 0 then 0 else INVALID)) ∧
    (∃ t2, deserialize (bindListener (create sampleWorld []) recorder)
        ((([(2, 1), (1, INVALID)] : List (Int × Int)).length : Int) ::
          ([(2, 1), (1, INVALID)].flatMap writePair ++ [])) = some t2 ∧
      t2.observed = (bindListener (create sampleWorld []) recorder).observed ++
        [(2, 1), (1, INVALID)].map
          (fun cp => (cp.1, cp.2, if 0 ≤ cp.2 then cp.2 else INVALID))) :=
  setParent_notifies sampleStore sampleStore_reachable 1 0
    (bindListener (create sampleWorld []) recorder)
    (Reachable.bindListener recorder (Reachable.create sampleWorld [])) rfl
    [(2, 1), (1, INVALID)] []

/-- C10. Persisted format. For a reachable store with `n` entries in `m_parents`, `serialize`
writes `1 + 2n` values: `n`, then for each of `n` pairs `(c, p)` in turn the child handle
`c` followed by the parent handle `p`; every pair `(c, p)` has `m_parents[c] = p` and `p`
non-negative, and every key of `m_parents` is the child of exactly one pair. -/
theorem serialize_format [Mul M] [Inv M] (s : HierarchyImpl M Ω) (hs : Reachable s)
    (it : Iteration) :
    ∃ pairs : List (Int × Int),
      serialize it s =
        (s.m_parents.length : Int) :: pairs.flatMap (fun cp => [cp.1, cp.2]) ∧
      pairs.length = s.m_parents.length ∧
      (serialize it s).length = 1 + 2 * s.m_parents.length ∧
      (∀ cp ∈ pairs, find s.m_parents cp.1 = some cp.2 ∧ 0 ≤ cp.2) ∧
      (∀ c ∈ keys s.m_parents,
        (pairs.filter (fun cp => decide (cp.1 = c))).length = 1) := by
  have hc := consistent_reachable s hs
  have hperm := it.perm s.m_parents
  have hn : (keys (it.run s.m_parents)).Nodup :=
    ((hperm.map Prod.fst).nodup_iff).mpr hc.parents_nodup
  refine ⟨it.run s.m_parents, rfl, hperm.length_eq, ?_, ?_, ?_⟩
  · simp only [serialize, List.length_cons, length_flatMap_writePair, hperm.length_eq]
    omega
  · intro cp hcp
    have hmem : (cp.1, cp.2) ∈ s.m_parents := hperm.mem_iff.mp hcp
    have hf := find_of_mem s.m_parents cp.1 cp.2 hc.parents_nodup hmem
    exact ⟨hf, hc.parent_nonneg cp.1 cp.2 hf⟩
  · intro c hmem
    exact filter_key_length _ c hn ((hperm.map Prod.fst).mem_iff.mpr hmem)

/-- Witness of C10: the sample store, with the hash map iterated backwards. -/
theorem serialize_format_witness :
    ∃ pairs : List (Int × Int),
      serialize ⟨List.reverse, List.reverse_perm⟩ sampleStore =
        (sampleStore.m_parents.length : Int) :: pairs.flatMap (fun cp => [cp.1, cp.2]) ∧
      pairs.length = sampleStore.m_parents.length ∧
      (serialize ⟨List.reverse, List.reverse_perm⟩ sampleStore).length =
        1 + 2 * sampleStore.m_parents.length ∧
      (∀ cp ∈ pairs, find sampleStore.m_parents cp.1 = some cp.2 ∧ 0 ≤ cp.2) ∧
      (∀ c ∈ keys sampleStore.m_parents,
        (pairs.filter (fun cp => decide (cp.1 = c))).length = 1) :=
  serialize_format sampleStore sampleStore_reachable ⟨List.reverse, List.reverse_perm⟩

/-! ## The detach loop as an erase at an index -/

theorem eraseChild_eq_eraseIdx (cs : List (Child M)) (c : Int) :
    eraseChild cs c = cs.eraseIdx (cs.findIdx (fun ch => decide (ch.m_entity = c))) := by
  induction cs with
  | nil => rfl
  | cons ch rest ih =>
    by_cases h : ch.m_entity = c
    · simp [eraseChild, List.findIdx_cons, h]
    · simp [eraseChild, List.findIdx_cons, h, ih]

theorem mem_entities_iff (cs : List (Child M)) (c : Int) :
    c ∈ entities cs ↔ ∃ ch ∈ cs, ch.m_entity = c := by
  simp [entities]

/-- C16. Reentrancy guard. On a store `s` whose guard is set `onEntityMoved(e)` returns `s`
itself: maps, local and world matrices and the guard are as they were. So, for a store `t`
whose guard is clear, the first loop of the outer call does what it would do if the
notifications of its `setMatrix` calls were not delivered at all, and the outer call
returns with the guard clear. -/
theorem reentrancy_guard [Mul M] [Inv M] (s t : HierarchyImpl M Ω) (e : Int) (fuel : Nat)
    (hs : s.m_is_processing = true) (ht : t.m_is_processing = false) :
    onEntityMoved (fuel + 1) s e = some s ∧
    moveAll (onEntityMoved (fuel + 1)) { t with m_is_processing := true } e =
      moveAll (fun u _ => some u) { t with m_is_processing := true } e ∧
    ∃ t2, onEntityMoved (fuel + 2) t e = some t2 ∧ t2.m_is_processing = false := by
  refine ⟨onEntityMoved_processing fuel s e hs, ?_, moved t e, onEntityMoved_eq fuel t e ht,
    (moved_frame t e).2.2.2.2.1⟩
  rw [moveAll_total (onEntityMoved (fuel + 1))
      (fun u e1 hu => onEntityMoved_processing fuel u e1 hu) _ e rfl,
    moveAll_total (fun u _ => some u) (fun _ _ _ => rfl) _ e rfl]

/-- Witness of C16: the sample store with the guard set is returned as it is; the sample
store itself, whose guard is clear, is returned with the guard clear. -/
theorem reentrancy_guard_witness :
    onEntityMoved 1 { sampleStore with m_is_processing := true } 0 =
      some { sampleStore with m_is_processing := true } ∧
    moveAll (onEntityMoved 1) { sampleStore with m_is_processing := true } 0 =
      moveAll (fun u _ => some u) { sampleStore with m_is_processing := true } 0 ∧
    ∃ t2, onEntityMoved 2 sampleStore 0 = some t2 ∧ t2.m_is_processing = false :=
  reentrancy_guard { sampleStore with m_is_processing := true } sampleStore 0 0 rfl rfl

/-- C19. The detach branch cannot go wrong on a reachable store. When `m_parents` maps `c` to
`o`, the array of `o` exists (the `ASSERT` holds, `setParent` returns), the loop finds a
record of `c` at an index within the array, and what the loop does is erase the record at
that index: the array is one record shorter. -/
theorem detach_cannot_go_wrong [Mul M] [Inv M] (s : HierarchyImpl M Ω) (hs : Reachable s)
    (c o : Int) (ho : find s.m_parents c = some o) :
    (∀ p, ∃ s2, setParent s c p = some s2) ∧
    ∃ cs, getChildren s o = some cs ∧
      cs.findIdx (fun ch => decide (ch.m_entity = c)) < cs.length ∧
      (∃ ch, cs[cs.findIdx (fun ch => decide (ch.m_entity = c))]? = some ch ∧
        ch.m_entity = c) ∧
      eraseChild cs c = cs.eraseIdx (cs.findIdx (fun ch => decide (ch.m_entity = c))) ∧
      (eraseChild cs c).length + 1 = cs.length := by
  have hc := consistent_reachable s hs
  obtain ⟨cs, hcs, hmem⟩ := (hc.link c o).mp ho
  have hex : ∃ ch ∈ cs, decide (ch.m_entity = c) = true := by
    obtain ⟨ch, h1, h2⟩ := (mem_entities_iff cs c).mp hmem
    exact ⟨ch, h1, by simpa using h2⟩
  have hlt := List.findIdx_lt_length_of_exists hex
  refine ⟨fun p => setParent_some s c p hc, cs, hcs, hlt, ?_, eraseChild_eq_eraseIdx cs c, ?_⟩
  · refine ⟨cs[cs.findIdx (fun ch => decide (ch.m_entity = c))], List.getElem?_eq_getElem hlt, ?_⟩
    have := List.findIdx_getElem (w := hlt)
    simpa using this
  · rw [eraseChild_eq_eraseIdx, List.length_eraseIdx]
    simp only [hlt, if_true]
    omega

/-- Witness of C19: entity 3 of the sample store, whose old parent is 0. -/
theorem detach_cannot_go_wrong_witness :
    (∀ p, ∃ s2, setParent sampleStore 3 p = some s2) ∧
    ∃ cs, getChildren sampleStore 0 = some cs ∧
      cs.findIdx (fun ch => decide (ch.m_entity = 3)) < cs.length ∧
      (∃ ch, cs[cs.findIdx (fun ch => decide (ch.m_entity = 3))]? = some ch ∧
        ch.m_entity = 3) ∧
      eraseChild cs 3 = cs.eraseIdx (cs.findIdx (fun ch => decide (ch.m_entity = 3))) ∧
      (eraseChild cs 3).length + 1 = cs.length :=
  detach_cannot_go_wrong sampleStore sampleStore_reachable 3 0 rfl

/-- C17. In every reachable store an entity is the entity of at most one child record over all
the arrays of children taken together: the entities of all records, array after array,
form a list without repetition (each handle counts at most once in it), and so does each
single array. -/
theorem one_record_per_child [Mul M] [Inv M] (s : HierarchyImpl M Ω) (hs : Reachable s) :
    (s.m_children.flatMap (fun kv => entities kv.2)).Nodup ∧
    (∀ c, (s.m_children.flatMap (fun kv => entities kv.2)).count c ≤ 1) ∧
    (∀ p cs, getChildren s p = some cs → (entities cs).Nodup) := by
  have hc := consistent_reachable s hs
  have hnodup : (s.m_children.flatMap (fun kv => entities kv.2)).Nodup := by
    rw [List.nodup_flatMap]
    constructor
    · intro x hx
      exact hc.entities_nodup x.1 x.2 (find_of_mem s.m_children x.1 x.2 hc.children_nodup hx)
    · have hk : List.Pairwise (fun a b : Int × List (Child M) => a.1 ≠ b.1) s.m_children :=
        List.pairwise_map.mp hc.children_nodup
      refine List.Pairwise.imp_of_mem ?_ hk
      intro a b ha hb hne
      have hfa := find_of_mem s.m_children a.1 a.2 hc.children_nodup ha
      have hfb := find_of_mem s.m_children b.1 b.2 hc.children_nodup hb
      intro c hca hcb
      have h1 := (hc.link c a.1).mpr ⟨a.2, hfa, hca⟩
      have h2 := (hc.link c b.1).mpr ⟨b.2, hfb, hcb⟩
      rw [h1] at h2
      injection h2 with h3
      exact hne h3
  exact ⟨hnodup, List.nodup_iff_count_le_one.mp hnodup, fun p cs h => hc.entities_nodup p cs h⟩

/-- Witness of C17: the sample store. -/
theorem one_record_per_child_witness :
    (sampleStore.m_children.flatMap (fun kv => entities kv.2)).Nodup ∧
    (∀ c, (sampleStore.m_children.flatMap (fun kv => entities kv.2)).count c ≤ 1) ∧
    (∀ p cs, getChildren sampleStore p = some cs → (entities cs).Nodup) :=
  one_record_per_child sampleStore sampleStore_reachable

/-! ## Childless parents -/

theorem foldl_eraseChild_entities (cs : List (Child M)) :
    (entities cs).foldl eraseChild cs = [] := by
  induction cs with
  | nil => rfl
  | cons ch rest ih =>
    simp only [entities, List.map_cons, List.foldl_cons, eraseChild, if_true]
    exact ih

theorem setParents_detach_children [Mul M] [Inv M] (es : List Int) (p : Int) :
    ∀ s s2 : HierarchyImpl M Ω, Consistent s →
      setParents s (es.map (fun e => (e, INVALID))) = some s2 →
      find s2.m_children p = (find s.m_children p).map (fun cs => es.foldl eraseChild cs) := by
  induction es with
  | nil =>
    intro s s2 _ h
    simp only [List.map_nil, setParents, Option.some.injEq] at h
    simp [h]
  | cons e rest ih =>
    intro s s2 hs h
    obtain ⟨s1, h1, h2⟩ := setParents_cons s s2 e INVALID _ h
    have hs1 := consistent_setParent s s1 e INVALID hs h1
    have hneg : ¬ (0 : Int) ≤ INVALID := by decide
    rw [ih s1 s2 hs1 h2, setParent_find_children s s1 e INVALID hs h1 p]
    simp only [hneg, false_and, if_false, Option.map_map]
    rfl

theorem no_child_iff (s : HierarchyImpl M Ω) (hc : Consistent s) (p : Int) :
    (getChildren s p = none ∨ getChildren s p = some []) ↔
      ∀ c, find s.m_parents c ≠ some p := by
  unfold getChildren
  constructor
  · intro h c hcp
    obtain ⟨cs, hcs, hmem⟩ := (hc.link c p).mp hcp
    rcases h with h | h
    · rw [h] at hcs; cases hcs
    · rw [h] at hcs
      injection hcs with h1
      subst h1
      simp [entities] at hmem
  · intro h
    cases hcs : find s.m_children p with
    | none => exact Or.inl rfl
    | some cs =>
      cases cs with
      | nil => exact Or.inr rfl
      | cons ch rest =>
        exact absurd ((hc.link ch.m_entity p).mpr ⟨ch :: rest, hcs, by simp [entities]⟩)
          (h ch.m_entity)

theorem getParent_eq_iff (s : HierarchyImpl M Ω) (c p : Int) (hp : 0 ≤ p) :
    getParent s c = p ↔ find s.m_parents c = some p := by
  unfold getParent
  cases h : find s.m_parents c with
  | none =>
    simp only [reduceCtorEq, iff_false]
    intro h1
    rw [← h1] at hp
    exact absurd hp (by decide)
  | some q => simp

/-- C11. Absence is not an error. `getParent` and `getChildren` are functions of the store: they
give an answer for every argument and return no store at all. In every reachable store,
`getParent(c)` is the sentinel exactly when `m_parents` has no entry for `c`;
`getChildren(p)` is `NULL` or empty exactly when no entity has `p` as its entry in
`m_parents`, which for a real handle `p` is: no entity `c` has `getParent(c) = p`; and
after every child of `p` has been detached, `getChildren(p)` is the empty array, not
`NULL`. -/
theorem absence_is_not_an_error [Mul M] [Inv M] (s : HierarchyImpl M Ω) (hs : Reachable s) :
    (∀ c, getParent s c = INVALID ↔ find s.m_parents c = none) ∧
    (∀ p, 0 ≤ p →
      ((getChildren s p = none ∨ getChildren s p = some []) ↔ ∀ c, getParent s c ≠ p)) ∧
    (∀ p, (getChildren s p = none ∨ getChildren s p = some []) ↔
      ∀ c, find s.m_parents c ≠ some p) ∧
    (∀ p cs, getChildren s p = some cs →
      ∃ s2, setParents s (cs.map (fun ch => (ch.m_entity, INVALID))) = some s2 ∧
        getChildren s2 p = some []) := by
  have hc := consistent_reachable s hs
  refine ⟨?_, ?_, no_child_iff s hc, ?_⟩
  · intro c
    unfold getParent
    cases h : find s.m_parents c with
    | none => simp
    | some q =>
      simp only [reduceCtorEq, iff_false]
      intro h1
      have := hc.parent_nonneg c q h
      rw [h1] at this
      exact absurd this (by decide)
  · intro p hp
    rw [no_child_iff s hc p]
    constructor
    · intro h c hcp
      exact h c ((getParent_eq_iff s c p hp).mp hcp)
    · intro h c hcp
      exact h c ((getParent_eq_iff s c p hp).mpr hcp)
  · intro p cs hcs
    obtain ⟨s2, h2, _⟩ := setParents_some (cs.map (fun ch => (ch.m_entity, INVALID))) s hc
    refine ⟨s2, h2, ?_⟩
    have hmap : cs.map (fun ch => (ch.m_entity, INVALID)) =
        (entities cs).map (fun e => (e, INVALID)) := by
      simp [entities]
    rw [hmap] at h2
    have hcs1 : find s.m_children p = some cs := hcs
    unfold getChildren
    rw [setParents_detach_children (entities cs) p s s2 hc h2, hcs1]
    simp [foldl_eraseChild_entities]

/-- Witness of C11: the sample store. -/
theorem absence_is_not_an_error_witness :
    (∀ c, getParent sampleStore c = INVALID ↔ find sampleStore.m_parents c = none) ∧
    (∀ p, 0 ≤ p →
      ((getChildren sampleStore p = none ∨ getChildren sampleStore p = some []) ↔
        ∀ c, getParent sampleStore c ≠ p)) ∧
    (∀ p, (getChildren sampleStore p = none ∨ getChildren sampleStore p = some []) ↔
      ∀ c, find sampleStore.m_parents c ≠ some p) ∧
    (∀ p cs, getChildren sampleStore p = some cs →
      ∃ s2, setParents sampleStore (cs.map (fun ch => (ch.m_entity, INVALID))) = some s2 ∧
        getChildren s2 p = some []) :=
  absence_is_not_an_error sampleStore sampleStore_reachable

/-! ## The recomputed local matrix -/

theorem setLocalMatrix_of_not_mem (cs : List (Child M)) (e : Int) (m : M)
    (h : e ∉ entities cs) : setLocalMatrix cs e m = cs := by
  induction cs with
  | nil => rfl
  | cons ch rest ih =>
    simp only [entities, List.map_cons, List.mem_cons, not_or] at h
    have h1 : ¬ ch.m_entity = e := fun h2 => h.1 h2.symm
    have h3 : e ∉ entities rest := h.2
    simp [setLocalMatrix, h1, ih h3]

theorem map_local_of_not_mem (cs : List (Child M)) (e : Int) (m : M) (h : e ∉ entities cs) :
    cs.map (fun ch => if ch.m_entity = e then { ch with m_local_matrix := m } else ch) = cs := by
  induction cs with
  | nil => rfl
  | cons ch rest ih =>
    simp only [entities, List.map_cons, List.mem_cons, not_or] at h
    have h1 : ¬ ch.m_entity = e := fun h2 => h.1 h2.symm
    have h3 : e ∉ entities rest := h.2
    simp [h1, ih h3]

theorem setLocalMatrix_eq_map (cs : List (Child M)) (e : Int) (m : M)
    (hn : (entities cs).Nodup) :
    setLocalMatrix cs e m =
      cs.map (fun ch => if ch.m_entity = e then { ch with m_local_matrix := m } else ch) := by
  induction cs with
  | nil => rfl
  | cons ch rest ih =>
    simp only [entities, List.map_cons, List.nodup_cons] at hn
    by_cases h : ch.m_entity = e
    · subst h
      have h1 : ch.m_entity ∉ entities rest := hn.1
      simp [setLocalMatrix, map_local_of_not_mem rest ch.m_entity m h1]
    · simp [setLocalMatrix, h, ih hn.2]

theorem moved_children_of_root [Mul M] [Inv M] (s : HierarchyImpl M Ω) (e : Int)
    (h : find s.m_parents e = none) : (moved s e).m_children = s.m_children := by
  simp [moved, updateLocal, h]

/-- C15. On a reachable store `onEntityMoved(e)` returns a store with the same parent map, the
same arrays of children with the same entities in the same order, and: when `e` has the
parent `p`, the array of `p` is the old one in which the record of `e` has the local
matrix `inverse(world(p)) * world(e)` of the world matrices at return and every other
record is as it was; every array other than that of the parent of `e` is as it was; when
`e` has no parent, `m_children` is as it was. -/
theorem onEntityMoved_local [Mul M] [Inv M] (s : HierarchyImpl M Ω) (hs : Reachable s)
    (e : Int) :
    ∃ s2, (∀ fuel, onEntityMoved (fuel + 2) s e = some s2) ∧
      s2.m_parents = s.m_parents ∧ keys s2.m_children = keys s.m_children ∧
      (∀ q, (getChildren s2 q).map entities = (getChildren s q).map entities) ∧
      (∀ p, find s.m_parents e = some p →
        ∃ cs, getChildren s p = some cs ∧ e ∈ entities cs ∧
          getChildren s2 p = some (cs.map (fun ch =>
            if ch.m_entity = e then
              { ch with m_local_matrix := (s2.world p)⁻¹ * s2.world e }
            else ch))) ∧
      (∀ q, find s.m_parents e ≠ some q → getChildren s2 q = getChildren s q) ∧
      (find s.m_parents e = none → s2.m_children = s.m_children) := by
  have hc := consistent_reachable s hs
  obtain ⟨hw, hp, _, _, _, hk⟩ := moved_frame s e
  refine ⟨moved s e, fun fuel => onEntityMoved_eq fuel s e hc.idle, hp, hk,
    fun q => moved_entities s e q, ?_, ?_, moved_children_of_root s e⟩
  · intro p hep
    obtain ⟨cs, hcs, hmem⟩ := (hc.link e p).mp hep
    refine ⟨cs, hcs, hmem, ?_⟩
    unfold getChildren
    rw [moved_find_children, hw]
    simp only [hep, if_true, hcs, Option.map_some']
    rw [setLocalMatrix_eq_map cs e _ (hc.entities_nodup p cs hcs)]
  · intro q hq
    unfold getChildren
    rw [moved_find_children]
    simp [hq]

/-- Witness of C15: entity 1 of the sample store, whose parent is 0. -/
theorem onEntityMoved_local_witness :
    ∃ s2, (∀ fuel, onEntityMoved (fuel + 2) sampleStore 1 = some s2) ∧
      s2.m_parents = sampleStore.m_parents ∧ keys s2.m_children = keys sampleStore.m_children ∧
      (∀ q, (getChildren s2 q).map entities = (getChildren sampleStore q).map entities) ∧
      (∀ p, find sampleStore.m_parents 1 = some p →
        ∃ cs, getChildren sampleStore p = some cs ∧ (1 : Int) ∈ entities cs ∧
          getChildren s2 p = some (cs.map (fun ch =>
            if ch.m_entity = 1 then
              { ch with m_local_matrix := (s2.world p)⁻¹ * s2.world 1 }
            else ch))) ∧
      (∀ q, find sampleStore.m_parents 1 ≠ some q →
        getChildren s2 q = getChildren sampleStore q) ∧
      (find sampleStore.m_parents 1 = none → s2.m_children = sampleStore.m_children) :=
  onEntityMoved_local sampleStore sampleStore_reachable 1

/-! ## The consistency check of the detach branch -/

theorem modify_of_fixed {α : Type} (m : List (Int × α)) (k : Int) (f : α → α) (v : α)
    (h : find m k = some v) (hf : f v = v) : modify m k f = m := by
  induction m with
  | nil => rfl
  | cons e rest ih =>
    obtain ⟨k1, v1⟩ := e
    by_cases h1 : k1 = k
    · simp only [find, h1, if_true, Option.some.injEq] at h
      subst h
      simp [modify, h1, hf]
    · simp only [find, h1, if_false] at h
      simp [modify, h1, ih h]

/-- Counterexample to C18: in a store where `m_parents` maps 1 to 0 and the array of 0 holds no
record of 1, `setParent(1, 2)` does not fail; it returns a store in which 1 has the parent
2 and a record in the array of 2. -/
theorem setParent_missing_record_counterexample :
    find brokenStore.m_parents 1 = some 0 ∧ getChildren brokenStore 0 = some [] ∧
    ∃ s2, setParent brokenStore 1 2 = some s2 ∧ find s2.m_parents 1 = some 2 ∧
      getChildren s2 0 = some [] ∧ getChildren s2 2 = some [⟨1, ⟨1, -2, 0⟩⟩] :=
  ⟨rfl, rfl, _, rfl, rfl, rfl, rfl⟩

/-- C18, amended. In any store where `m_parents` maps `c` to an old parent `o`, `setParent(c, p)`
fails its check exactly when `o` has no array of children. When the array exists but holds
no record of `c`, the call does not fail: the array is left as it is, the entry of `c` is
erased from `m_parents`, and the call goes on to store the new relation and notify. -/
theorem setParent_consistency_check [Mul M] [Inv M] (s : HierarchyImpl M Ω) (c p o : Int)
    (ho : find s.m_parents c = some o) :
    (setParent s c p = none ↔ find s.m_children o = none) ∧
    (∀ cs, find s.m_children o = some cs → c ∉ entities cs →
      setParent s c p =
        some (notifyParentSet (attach { s with m_parents := erase s.m_parents c } c p) c p)) := by
  constructor
  · unfold setParent detach
    simp only [ho]
    cases find s.m_children o <;> simp
  · intro cs hcs hnot
    have hm : modify s.m_children o (fun children => eraseChild children c) = s.m_children :=
      modify_of_fixed s.m_children o _ cs hcs (eraseChild_of_not_mem cs c hnot)
    unfold setParent detach
    simp only [ho, hcs, hm]

/-- Witness of C18, amended: the store with the missing record, `setParent(1, 2)`. -/
theorem setParent_consistency_check_witness :
    (setParent brokenStore 1 2 = none ↔ find brokenStore.m_children 0 = none) ∧
    (∀ cs, find brokenStore.m_children 0 = some cs → (1 : Int) ∉ entities cs →
      setParent brokenStore 1 2 =
        some (notifyParentSet
          (attach { brokenStore with m_parents := erase brokenStore.m_parents 1 } 1 2) 1 2)) :=
  setParent_consistency_check brokenStore 1 2 0 rfl

/-! ## Chains of parents -/

theorem ancestor_succ (s : HierarchyImpl M Ω) (n : Nat) (c : Int) :
    ancestor s (n + 1) c = getParent s (ancestor s n c) := by
  induction n generalizing c with
  | zero => rfl
  | succ n ih =>
    show ancestor s (n + 1) (getParent s c) = getParent s (ancestor s n (getParent s c))
    exact ih (getParent s c)

theorem ancestor_fixed (s : HierarchyImpl M Ω) (c : Int) (h : getParent s c = c) :
    ∀ n, ancestor s n c = c := by
  intro n
  induction n with
  | zero => rfl
  | succ n ih =>
    show ancestor s n (getParent s c) = c
    rw [h, ih]

theorem acyclic_setParent [Mul M] [Inv M] (s s1 : HierarchyImpl M Ω) (c p : Int)
    (hs : Consistent s) (hacyc : ∀ x, ∃ n, ancestor s n x = INVALID)
    (hguard : ∀ n, ancestor s n p ≠ c) (h : setParent s c p = some s1) :
    ∀ x, ∃ n, ancestor s1 n x = INVALID := by
  have hget := getParent_setParent s s1 c p hs h
  have hsame : ∀ n, ancestor s1 n p = ancestor s n p := by
    intro n
    induction n with
    | zero => rfl
    | succ n ih =>
      rw [ancestor_succ, ancestor_succ, ih, hget]
      simp [hguard n]
  have hchild : ∃ n, ancestor s1 n c = INVALID := by
    by_cases hp : 0 ≤ p
    · obtain ⟨n, hn⟩ := hacyc p
      refine ⟨n + 1, ?_⟩
      show ancestor s1 n (getParent s1 c) = INVALID
      rw [hget]
      simp only [if_true, hp]
      rw [hsame, hn]
    · refine ⟨1, ?_⟩
      show getParent s1 c = INVALID
      rw [hget]
      simp [hp]
  have hall : ∀ n x, ancestor s n x = INVALID → ∃ m, ancestor s1 m x = INVALID := by
    intro n
    induction n with
    | zero =>
      intro x hx
      exact ⟨0, hx⟩
    | succ n ih =>
      intro x hx
      by_cases hxc : x = c
      · subst hxc
        exact hchild
      · obtain ⟨m, hm⟩ := ih (getParent s x) hx
        refine ⟨m + 1, ?_⟩
        show ancestor s1 m (getParent s1 x) = INVALID
        rw [hget]
        simpa [hxc] using hm
  intro x
  obtain ⟨n, hn⟩ := hacyc x
  exact hall n x hn

theorem acyclic_guardedCalls [Mul M] [Inv M] (calls : List (Int × Int)) :
    ∀ s : HierarchyImpl M Ω, Consistent s → (∀ x, ∃ n, ancestor s n x = INVALID) →
      guardedCalls s calls →
      ∃ s2, setParents s calls = some s2 ∧ ∀ x, ∃ n, ancestor s2 n x = INVALID := by
  induction calls with
  | nil =>
    intro s _ hacyc _
    exact ⟨s, rfl, hacyc⟩
  | cons call rest ih =>
    intro s hs hacyc hg
    obtain ⟨c, p⟩ := call
    obtain ⟨s1, h1⟩ := setParent_some s c p hs
    simp only [guardedCalls, h1] at hg
    obtain ⟨s2, h2, hacyc2⟩ := ih s1 (consistent_setParent s s1 c p hs h1)
      (acyclic_setParent s s1 c p hs hacyc hg.1 h1) hg.2
    exact ⟨s2, by simp [setParents, h1, h2], hacyc2⟩

/-- Counterexample to C12: `setParent(1, 1)` on the empty store is accepted, entity 1 is then its
own parent, and its chain of parents never reaches the sentinel. -/
theorem forest_counterexample :
    ∃ s : HierarchyImpl Translation Unit,
      setParents (create sampleWorld ()) [(1, 1)] = some s ∧ getParent s 1 = 1 ∧
      ∀ n, ancestor s n 1 ≠ INVALID := by
  refine ⟨_, rfl, rfl, fun n => ?_⟩
  rw [ancestor_fixed]
  · decide
  · rfl

/-- C12, amended. Starting from the empty store, a sequence of `setParent` calls in which no
call names as parent the child itself or an entity that has the child in its chain of
parents is accepted call by call, and in the store it leads to the parent relation is
acyclic: from every entity, `getParent` applied finitely many times reaches the
sentinel. -/
theorem guarded_calls_keep_forest [Mul M] [Inv M] (world : Int → M) (ω : Ω)
    (calls : List (Int × Int)) (hg : guardedCalls (create world ω) calls) :
    ∃ s2, setParents (create world ω) calls = some s2 ∧
      ∀ c, ∃ n, ancestor s2 n c = INVALID := by
  apply acyclic_guardedCalls calls (create world ω) (consistent_create world ω) _ hg
  intro x
  exact ⟨1, rfl⟩

theorem ancestor_create (world : Int → M) (ω : Ω) (n : Nat) (x : Int) :
    ancestor (create world ω) (n + 1) x = INVALID := by
  show ancestor (create world ω) n INVALID = INVALID
  exact ancestor_fixed (create world ω) INVALID rfl n

theorem ancestor_pairStore (n : Nat) : ancestor pairStore n 1 ≠ 2 := by
  match n with
  | 0 => decide
  | 1 => decide
  | n + 2 =>
    show ancestor pairStore n INVALID ≠ 2
    rw [ancestor_fixed pairStore INVALID rfl n]
    decide

/-- Witness of C12, amended: `setParent(1, 0)` then `setParent(2, 1)` on the empty store. Entity
0 has no chain of parents at the first call, and the chain of 1 at the second call is
`1, 0, NONE`, without 2. -/
theorem guarded_calls_keep_forest_witness :
    ∃ s2, setParents (create sampleWorld ()) [(1, 0), (2, 1)] = some s2 ∧
      ∀ c, ∃ n, ancestor s2 n c = INVALID :=
  guarded_calls_keep_forest sampleWorld () [(1, 0), (2, 1)]
    ⟨fun n => by
      cases n with
      | zero => decide
      | succ n => rw [ancestor_create]; decide,
     ancestor_pairStore, trivial⟩

/-! ## Cached offsets in hierarchies of depth one -/

theorem mem_of_mem_eraseChild (cs : List (Child M)) (c : Int) (ch : Child M)
    (h : ch ∈ eraseChild cs c) : ch ∈ cs := by
  induction cs with
  | nil => simp [eraseChild] at h
  | cons c0 rest ih =>
    by_cases h0 : c0.m_entity = c
    · simp only [eraseChild, h0, if_true] at h
      exact List.mem_cons_of_mem _ h
    · simp only [eraseChild, h0, if_false, List.mem_cons] at h
      rcases h with h | h
      · exact h ▸ List.mem_cons_self _ _
      · exact List.mem_cons_of_mem _ (ih h)

theorem depthOne_spec (s : HierarchyImpl M Ω) (h : depthOne s = true) (c p x : Int)
    (hc : find s.m_parents c = some p) : find s.m_parents x ≠ some c := by
  intro hx
  have h1 := mem_of_find s.m_parents c p hc
  have h2 := mem_of_find s.m_parents x c hx
  simp only [depthOne, List.all_eq_true, decide_eq_true_eq] at h
  exact h (c, p) h1 (x, c) h2 rfl

theorem flat_reachable [Group M] (s : HierarchyImpl M Ω) (h : FlatReachable s) :
    Reachable s := by
  induction h with
  | create world ω => exact Reachable.create world ω
  | setParent child parent _ h _ ih => exact Reachable.setParent child parent ih h
  | setMatrix fuel entity m _ h _ ih => exact Reachable.setMatrix fuel entity m ih h

theorem valid_setParent [Group M] (s s1 : HierarchyImpl M Ω) (c p : Int) (hc : Consistent s)
    (hv : ∀ q cs, find s.m_children q = some cs →
      ∀ ch ∈ cs, s.world q * ch.m_local_matrix = s.world ch.m_entity)
    (h : setParent s c p = some s1) :
    ∀ q cs, find s1.m_children q = some cs →
      ∀ ch ∈ cs, s1.world q * ch.m_local_matrix = s1.world ch.m_entity := by
  intro q cs hcs ch hch
  rw [(setParent_frame s s1 c p h).1]
  rw [setParent_find_children s s1 c p hc h q] at hcs
  by_cases hcond : 0 ≤ p ∧ q = p
  · simp only [hcond, and_self, if_true, Option.some.injEq] at hcs
    obtain ⟨_, hq⟩ := hcond
    subst hq
    rw [← hcs] at hch
    rcases List.mem_append.mp hch with h1 | h1
    · have h2 := mem_of_mem_eraseChild _ c ch h1
      cases h0 : find s.m_children q with
      | none => rw [h0] at h2; simp at h2
      | some cs0 =>
        rw [h0] at h2
        exact hv q cs0 h0 ch h2
    · simp only [List.mem_singleton] at h1
      subst h1
      exact mul_inv_cancel_left _ _
  · simp only [hcond, if_false] at hcs
    cases h0 : find s.m_children q with
    | none => rw [h0] at hcs; simp at hcs
    | some cs0 =>
      rw [h0] at hcs
      simp only [Option.map_some', Option.some.injEq] at hcs
      rw [← hcs] at hch
      exact hv q cs0 h0 ch (mem_of_mem_eraseChild cs0 c ch hch)

theorem valid_moved [Group M] (s : HierarchyImpl M Ω) (e : Int) (m : M) (hc : Consistent s)
    (hv : ∀ q cs, find s.m_children q = some cs →
      ∀ ch ∈ cs, s.world q * ch.m_local_matrix = s.world ch.m_entity)
    (hd : ∀ c p x, find s.m_parents c = some p → find s.m_parents x ≠ some c) :
    ∀ q cs, find (moved { s with world := Function.update s.world e m } e).m_children q =
        some cs →
      ∀ ch ∈ cs, (moved { s with world := Function.update s.world e m } e).world q *
        ch.m_local_matrix =
          (moved { s with world := Function.update s.world e m } e).world ch.m_entity := by
  intro q cs hcs ch hch
  have hlink : ∀ q cs0 (ch : Child M), find s.m_children q = some cs0 → ch ∈ cs0 →
      find s.m_parents ch.m_entity = some q :=
    fun q cs0 ch h1 h2 => (hc.link ch.m_entity q).mpr ⟨cs0, h1, List.mem_map.mpr ⟨ch, h2, rfl⟩⟩
  rw [(moved_frame _ e).1]
  rw [moved_find_children] at hcs
  dsimp only at hcs
  cases hpe : find s.m_parents e with
  | some pe =>
    have hempty : ∀ cs_e, find s.m_children e = some cs_e → cs_e = [] := by
      intro cs_e h
      cases cs_e with
      | nil => rfl
      | cons c0 rest =>
        exact absurd (hlink e _ c0 h (List.mem_cons_self _ _)) (hd e pe c0.m_entity hpe)
    have hw1 : movedWorld { s with world := Function.update s.world e m } e =
        Function.update s.world e m := by
      unfold movedWorld
      dsimp only
      cases h : find s.m_children e with
      | none => rfl
      | some cs_e => rw [hempty cs_e h]; rfl
    have hpe_ne : pe ≠ e := fun h => hd e pe e hpe (h ▸ hpe)
    rw [hw1]
    rw [hw1, hpe] at hcs
    by_cases hq : q = pe
    · subst hq
      simp only [if_true] at hcs
      cases h0 : find s.m_children q with
      | none => rw [h0] at hcs; simp at hcs
      | some cs0 =>
        rw [h0] at hcs
        simp only [Option.map_some', Option.some.injEq] at hcs
        rw [setLocalMatrix_eq_map cs0 e _ (hc.entities_nodup q cs0 h0)] at hcs
        rw [← hcs] at hch
        obtain ⟨ch0, hch0, heq⟩ := List.mem_map.mp hch
        by_cases he : ch0.m_entity = e
        · simp only [he, if_true] at heq
          rw [← heq]
          exact mul_inv_cancel_left _ _
        · simp only [he, if_false] at heq
          rw [← heq, Function.update_noteq hpe_ne, Function.update_noteq he]
          exact hv q cs0 h0 ch0 hch0
    · have hne2 : ¬ (some pe = some q) := fun h => hq (Option.some.inj h).symm
      simp only [hne2, if_false] at hcs
      by_cases hqe : q = e
      · subst hqe
        rw [hempty cs hcs] at hch
        simp at hch
      · have hne : ch.m_entity ≠ e := by
          intro h
          have := hlink q cs ch hcs hch
          rw [h, hpe] at this
          exact hq (Option.some.inj this).symm
        rw [Function.update_noteq hqe, Function.update_noteq hne]
        exact hv q cs hcs ch hch
  | none =>
    rw [hpe] at hcs
    simp only [reduceCtorEq, if_false] at hcs
    have hne : ch.m_entity ≠ e := by
      intro h
      have := hlink q cs ch hcs hch
      rw [h, hpe] at this
      cases this
    by_cases hqe : q = e
    · subst hqe
      have hself : q ∉ entities cs := by
        intro hmem
        have := (hc.link q q).mpr ⟨cs, hcs, hmem⟩
        rw [hpe] at this
        cases this
      have hw1 : movedWorld { s with world := Function.update s.world q m } q =
          moveWorld m cs (Function.update s.world q m) := by
        unfold movedWorld
        dsimp only
        rw [hcs]
        simp
      rw [hw1, moveWorld_not_mem _ cs q _ hself, Function.update_same,
        moveWorld_mem _ cs ch _ (hc.entities_nodup q cs hcs) hch]
    · have hw1 : movedWorld { s with world := Function.update s.world e m } e q = s.world q ∧
          movedWorld { s with world := Function.update s.world e m } e ch.m_entity =
            s.world ch.m_entity := by
        unfold movedWorld
        dsimp only
        cases h : find s.m_children e with
        | none => exact ⟨Function.update_noteq hqe _ _, Function.update_noteq hne _ _⟩
        | some cs_e =>
          have h1 : q ∉ entities cs_e := by
            intro hmem
            exact hd q e ch.m_entity ((hc.link q e).mpr ⟨cs_e, h, hmem⟩) (hlink q cs ch hcs hch)
          have h2 : ch.m_entity ∉ entities cs_e := by
            intro hmem
            have := (hc.link ch.m_entity e).mpr ⟨cs_e, h, hmem⟩
            rw [hlink q cs ch hcs hch] at this
            exact hqe (Option.some.inj this)
          dsimp only
          rw [moveWorld_not_mem _ cs_e q _ h1, moveWorld_not_mem _ cs_e _ _ h2]
          exact ⟨Function.update_noteq hqe _ _, Function.update_noteq hne _ _⟩
      rw [hw1.1, hw1.2]
      exact hv q cs hcs ch hch

theorem valid_flat_reachable [Group M] (s : HierarchyImpl M Ω) (h : FlatReachable s) :
    ∀ q cs, find s.m_children q = some cs →
      ∀ ch ∈ cs, s.world q * ch.m_local_matrix = s.world ch.m_entity := by
  induction h with
  | create world ω =>
    intro q cs hcs
    simp [create, find] at hcs
  | @setParent s0 s1 child parent hprev hset _ ih =>
    exact valid_setParent s0 s1 child parent
      (consistent_reachable s0 (flat_reachable s0 hprev)) ih hset
  | @setMatrix s0 s1 fuel entity m hprev hset hdepth ih =>
    have hc := consistent_reachable s0 (flat_reachable s0 hprev)
    have hres : s1 = moved { s0 with world := Function.update s0.world entity m } entity :=
      onEntityMoved_result fuel _ s1 entity hc.idle hset
    subst hres
    have hp : (moved { s0 with world := Function.update s0.world entity m } entity).m_parents =
        s0.m_parents := (moved_frame _ entity).2.1
    have hd : ∀ c p x, find s0.m_parents c = some p → find s0.m_parents x ≠ some c := by
      intro c p x hcp
      have := depthOne_spec _ hdepth c p x (by rw [hp]; exact hcp)
      rwa [hp] at this
    exact valid_moved s0 entity m hc ih hd

/-- C20. Cached offsets stay valid in hierarchies of depth one. With transforms that form a
group, in every store reached from the empty store by `setParent` calls and changes of
world matrices, each followed by its move notification, all states on the way being of
depth one, every child record `{c, local}` of the array of `p` has
`world(p) * local = world(c)`. -/
theorem cached_offsets_valid [Group M] (s : HierarchyImpl M Ω) (h : FlatReachable s)
    (p : Int) (cs : List (Child M)) (hcs : getChildren s p = some cs) :
    ∀ ch ∈ cs, s.world p * ch.m_local_matrix = s.world ch.m_entity :=
  valid_flat_reachable s h p cs hcs

theorem pairStore_flat : FlatReachable pairStore :=
  FlatReachable.setParent 1 0 (FlatReachable.create sampleWorld ()) rfl rfl

theorem movedStore_flat :
    FlatReachable (moved { pairStore with world := Function.update sampleWorld 0 ⟨5, 0, 0⟩ } 0) :=
  FlatReachable.setMatrix 2 0 ⟨5, 0, 0⟩ pairStore_flat
    (setMatrix_eq 0 pairStore 0 ⟨5, 0, 0⟩ rfl) rfl

/-- Witness of C20: entity 1 is made a child of 0 in the sample scene, then 0 is moved to
`(5,0,0)`; the record of 1 in the array of 0 is valid in the store this leads to. -/
theorem cached_offsets_valid_witness :
    (moved { pairStore with world := Function.update sampleWorld 0 ⟨5, 0, 0⟩ } 0).world 0 *
        (⟨1, 0, 0⟩ : Translation) =
      (moved { pairStore with world := Function.update sampleWorld 0 ⟨5, 0, 0⟩ } 0).world 1 :=
  cached_offsets_valid _ movedStore_flat 0 [⟨1, ⟨1, 0, 0⟩⟩] rfl ⟨1, ⟨1, 0, 0⟩⟩
    (List.mem_singleton.mpr rfl)

/-! ## The culling system -/

section Culling

variable {R : Type} [LinearOrderedRing R]

theorem flatMap_cullSlots (f : Frustum R) (spheres : List (Sphere R)) (done : List (List Nat)) :
    done.flatMap (cullSlots f spheres) = cullSlots f spheres done.flatten := by
  induction done with
  | nil => rfl
  | cons chunk rest ih =>
    simp only [List.flatMap_cons, List.flatten_cons, ih]
    simp [cullSlots, List.filter_append]

theorem mem_cullToFrustum (s : CullingSystemImpl R) (f : Frustum R) (i : Nat) :
    i ∈ getResult (cullToFrustum f s) ↔
      ∃ sph, s.m_spheres[i]? = some sph ∧ ∀ pl ∈ f.planes, ¬ outside pl sph := by
  simp only [getResult, cullToFrustum, cullSlots, List.mem_filter, List.mem_range, visible]
  constructor
  · rintro ⟨hi, hv⟩
    rw [List.getElem?_eq_getElem hi] at hv
    refine ⟨s.m_spheres[i], List.getElem?_eq_getElem hi, ?_⟩
    simpa [isSphereInside, outside] using hv
  · rintro ⟨sph, hsph, hall⟩
    have hi : i < s.m_spheres.length := by
      by_contra hlt
      rw [List.getElem?_eq_none (by omega)] at hsph
      cases hsph
    refine ⟨hi, ?_⟩
    rw [hsph]
    simpa [isSphereInside, outside] using hall

/-- C13. For every set of spheres and every frustum, however the slots are divided into chunks
and in whatever order the chunks complete, the indices `getResultAsync` returns after
`cullToFrustumAsync` are those `getResult` returns after `cullToFrustum`, each as many
times, in some order; the two results are equal as sets. -/
theorem cull_async_same_set (s : CullingSystemImpl R) (f : Frustum R)
    (chunks done : List (List Nat))
    (hpart : chunks.flatten.Perm (List.range s.m_spheres.length))
    (hdone : done.Perm chunks) :
    (getResultAsync done (cullToFrustumAsync f s)).2.Perm (getResult (cullToFrustum f s)) ∧
    ∀ i, i ∈ (getResultAsync done (cullToFrustumAsync f s)).2 ↔
      i ∈ getResult (cullToFrustum f s) := by
  have hperm : (getResultAsync done (cullToFrustumAsync f s)).2.Perm
      (getResult (cullToFrustum f s)) := by
    simp only [getResultAsync, cullToFrustumAsync, getResult, cullToFrustum, flatMap_cullSlots]
    exact (hdone.flatten.trans hpart).filter _
  exact ⟨hperm, fun i => hperm.mem_iff⟩

/-- Witness of C13: three spheres, the chunks `[0, 1]` and `[2]`, the second completing
first. -/
theorem cull_async_same_set_witness :
    (getResultAsync [[2], [0, 1]] (cullToFrustumAsync boxFrustum sampleCulling)).2.Perm
      (getResult (cullToFrustum boxFrustum sampleCulling)) ∧
    ∀ i, i ∈ (getResultAsync [[2], [0, 1]] (cullToFrustumAsync boxFrustum sampleCulling)).2 ↔
      i ∈ getResult (cullToFrustum boxFrustum sampleCulling) :=
  cull_async_same_set sampleCulling boxFrustum [[0, 1], [2]] [[2], [0, 1]]
    (by decide) (by decide)

/-- C14. Conservative frustum test. After `cullToFrustum(frustum)` the slot `i` is in
`getResult()` exactly when it holds a sphere that lies entirely on the outside of none of
the six planes. So a sphere (of non-negative radius) that every plane has entirely on its
inside or straddling it is present, one fully enclosed by the frustum among them; a sphere
entirely outside one plane is absent; and the asynchronous buffer is not touched. -/
theorem cull_conservative (s : CullingSystemImpl R) (f : Frustum R) :
    (∀ i, i ∈ getResult (cullToFrustum f s) ↔
      ∃ sph, s.m_spheres[i]? = some sph ∧ ∀ pl ∈ f.planes, ¬ outside pl sph) ∧
    (∀ i sph, s.m_spheres[i]? = some sph → 0 ≤ sph.m_radius →
      (∀ pl ∈ f.planes, inside pl sph ∨ straddles pl sph) →
      i ∈ getResult (cullToFrustum f s)) ∧
    (∀ i sph, s.m_spheres[i]? = some sph → 0 ≤ sph.m_radius →
      (∀ pl ∈ f.planes, inside pl sph) → i ∈ getResult (cullToFrustum f s)) ∧
    (∀ i sph, s.m_spheres[i]? = some sph → (∃ pl ∈ f.planes, outside pl sph) →
      i ∉ getResult (cullToFrustum f s)) ∧
    (cullToFrustum f s).m_result_async = s.m_result_async := by
  have hmix : ∀ i sph, s.m_spheres[i]? = some sph → 0 ≤ sph.m_radius →
      (∀ pl ∈ f.planes, inside pl sph ∨ straddles pl sph) →
      i ∈ getResult (cullToFrustum f s) := by
    intro i sph hsph hr hall
    rw [mem_cullToFrustum]
    refine ⟨sph, hsph, ?_⟩
    intro pl hpl hout
    unfold outside at hout
    rcases hall pl hpl with h | h
    · unfold inside at h
      have hneg : -sph.m_radius ≤ 0 := neg_nonpos.mpr hr
      exact lt_irrefl _ (lt_of_lt_of_le hout (hneg.trans (hr.trans h)))
    · unfold straddles at h
      exact not_lt.mpr h.1 hout
  refine ⟨mem_cullToFrustum s f, hmix, ?_, ?_, rfl⟩
  · intro i sph hsph hr hall
    exact hmix i sph hsph hr (fun pl hpl => Or.inl (hall pl hpl))
  · intro i sph hsph hout hmem
    rw [mem_cullToFrustum] at hmem
    obtain ⟨sph1, hsph1, hall⟩ := hmem
    rw [hsph] at hsph1
    injection hsph1 with h
    subst h
    obtain ⟨pl, hpl, ho⟩ := hout
    exact hall pl hpl ho

end Culling

/-- Witness of C14: against the view volume spanning `[-10, 10]` on each axis, the sphere at the
origin with radius 1 (slot 0) is included and the sphere at `(1000,0,0)` with radius 1
(slot 1) is excluded. -/
theorem cull_conservative_witness :
    0 ∈ getResult (cullToFrustum boxFrustum sampleCulling) ∧
    1 ∉ getResult (cullToFrustum boxFrustum sampleCulling) :=
  ⟨(cull_conservative sampleCulling boxFrustum).2.2.1 0 ⟨⟨0, 0, 0⟩, 1⟩ rfl (by decide)
      (by simp [Frustum.planes, boxFrustum, inside, signedDistance]),
    (cull_conservative sampleCulling boxFrustum).2.2.2.1 1 ⟨⟨1000, 0, 0⟩, 1⟩ rfl
      ⟨boxFrustum.right, by simp [Frustum.planes], by
        simp [boxFrustum, outside, signedDistance]⟩⟩

end Lumix
